import Mathlib

/-!
# Post store of the team chat platform

A shallow embedding of `store/sql_post_store.go`.  The `Posts` and `Channels`
tables are lists of rows, every SQL statement of the source is a function on
those lists, and every store operation returns the `StoreResult` it sends on
its result channel together with the tables (and the caller's post, where the
operation writes through the pointer it was handed).
-/

namespace Store

/-! ## Records of package `model` -/

/-- Modelled from the spec: the record `model.Post`; package `model` is not among
the sources.  The fields are the columns named in `NewSqlPostStore` and in the
SQL text of the store together with the data model of the specification.
Timestamps and `ImgCount` are `int64` in the source and no operation of the
store can overflow them. -/
structure Post where
  Id : String
  CreateAt : Int
  UpdateAt : Int
  DeleteAt : Int
  UserId : String
  ChannelId : String
  RootId : String
  ParentId : String
  OriginalId : String
  Message : String
  ImgCount : Int
  Typ : String
  Props : List (String × String)
  Hashtags : String
  Filenames : List String
deriving DecidableEq, Repr

/-- The zero value of `model.Post`, which is what `var post model.Post` holds. -/
def Post.zero : Post :=
  { Id := "", CreateAt := 0, UpdateAt := 0, DeleteAt := 0, UserId := "", ChannelId := "",
    RootId := "", ParentId := "", OriginalId := "", Message := "", ImgCount := 0, Typ := "",
    Props := [], Hashtags := "", Filenames := [] }

/-- Modelled from the spec: the record `model.AppError` as built by
`model.NewAppError(where, message, details)`. -/
structure AppError where
  Where : String
  Message : String
  DetailedError : String
deriving DecidableEq, Repr

/-- Modelled from the spec: `model.NewAppError`. -/
def NewAppError (wher message details : String) : AppError :=
  { Where := wher, Message := message, DetailedError := details }

/-- Modelled from the spec: `model.PostList`, an order list and a map from post id
to post.  The map is a list of key/value pairs with pairwise distinct keys; the
position of a pair in that list has no meaning. -/
structure PostList where
  Order : List String
  Posts : List (String × Post)
deriving DecidableEq, Repr

/-- The map assignment `m[k] = v`: overwrite the value of an existing key, add
the pair otherwise. -/
def mapSet (k : String) (v : Post) : List (String × Post) → List (String × Post)
  | [] => [(k, v)]
  | (k0, v0) :: rest => if k0 = k then (k, v) :: rest else (k0, v0) :: mapSet k v rest

/-- The map read `m[k]`. -/
def mapGet (k : String) : List (String × Post) → Option Post
  | [] => none
  | (k0, v0) :: rest => if k0 = k then some v0 else mapGet k rest

/-- Modelled from the spec: `PostList.AddPost`, which stores the post under its own id. -/
def PostList.AddPost (o : PostList) (post : Post) : PostList :=
  { o with Posts := mapSet post.Id post o.Posts }

/-- Modelled from the spec: `PostList.AddOrder`, which appends to the order list. -/
def PostList.AddOrder (o : PostList) (id : String) : PostList :=
  { o with Order := o.Order ++ [id] }

/-- Modelled from the spec: `PostList.MakeNonNil`, which replaces nil containers by
empty ones.  Lists have no nil value apart from the empty list. -/
def PostList.MakeNonNil (o : PostList) : PostList := o

/-- The value every store operation sends on its result channel. -/
structure StoreResult (α : Type) where
  Data : Option α
  Err : Option AppError
deriving DecidableEq, Repr

/-! ## Tables -/

/-- The columns of table `Channels` that the post store writes. -/
structure Channel where
  Id : String
  LastPostAt : Int
  TotalMsgCount : Int
deriving DecidableEq, Repr

/-- The two tables the post store reads and writes, rows in storage order. -/
structure Db where
  Posts : List Post
  Channels : List Channel
deriving DecidableEq, Repr

/-- The primary key of table `Posts` (`SetKeys(false, "Id")`): no two rows share an id. -/
def Db.UniqueIds (db : Db) : Prop := (db.Posts.map Post.Id).Nodup

instance (db : Db) : Decidable db.UniqueIds := by
  unfold Db.UniqueIds; infer_instance

/-- The liveness predicate `DeleteAt = 0`. -/
def Post.Live (p : Post) : Prop := p.DeleteAt = 0

instance (p : Post) : Decidable p.Live := by
  unfold Post.Live; infer_instance

/-! ## SQL building blocks -/

deriving instance DecidableEq for Except

/-- The clause `ORDER BY CreateAt DESC`; rows with equal keys keep their storage order. -/
def orderByCreateAtDesc (rows : List Post) : List Post :=
  rows.insertionSort (fun a b => b.CreateAt ≤ a.CreateAt)

/-- The clause `ORDER BY CreateAt`; rows with equal keys keep their storage order. -/
def orderByCreateAt (rows : List Post) : List Post :=
  rows.insertionSort (fun a b => a.CreateAt ≤ b.CreateAt)

/-- The clause `ORDER BY UpdateAt DESC`; rows with equal keys keep their storage order. -/
def orderByUpdateAtDesc (rows : List Post) : List Post :=
  rows.insertionSort (fun a b => b.UpdateAt ≤ a.UpdateAt)

/-- The clause `LIMIT offset, count`. The database rejects a negative argument. -/
def sqlLimit (offset count : Int) (rows : List Post) : Except String (List Post) :=
  if offset < 0 ∨ count < 0 then .error "Incorrect arguments to LIMIT"
  else .ok ((rows.drop offset.toNat).take count.toNat)

/-- The call `SelectOne` of the mapper: exactly one row, anything else is an error
that leaves the holder untouched. -/
def SelectOne {α : Type} (rows : List α) : Except String α :=
  match rows with
  | [] => .error "sql: no rows in result set"
  | [r] => .ok r
  | _ :: _ :: _ => .error "gorp: multiple rows returned"

/-! ## Attachment URLs -/

/-- The call `strconv.Itoa` on a non-negative loop counter. -/
def Itoa (n : Nat) : String := Nat.repr n

/-- One URL of the loop body, for loop counter `i`. -/
def fileUrl (channelId postId : String) (i : Nat) : String :=
  "/api/v1/files/get_image/" ++ channelId ++ "/" ++ postId ++ "/" ++ Itoa (i + 1) ++ ".png"

/-- The loop `for i := 0; int64(i) < ImgCount; i++` appending one URL per round.
The first argument bounds the number of rounds. -/
def fileUrlLoop (channelId postId : String) (imgCount : Int) :
    Nat → Nat → List String → List String
  | 0, _, acc => acc
  | fuel + 1, i, acc =>
    if (i : Int) < imgCount then
      fileUrlLoop channelId postId imgCount fuel (i + 1) (acc ++ [fileUrl channelId postId i])
    else acc

/-- The block `if p.ImgCount > 0 { p.Filenames = []string{}; for ... }` that `Get`
and `GetPosts` run on a post. -/
def withFileUrls (p : Post) : Post :=
  if p.ImgCount > 0 then
    { p with Filenames := fileUrlLoop p.ChannelId p.Id p.ImgCount p.ImgCount.toNat 0 [] }
  else p

/-! ## Package `model`: what the store calls -/

/-- The functions and constants of package `model` that the store calls and whose
code is not among the sources.  Every theorem below holds for each choice of them. -/
structure Model where
  IsValid : Post → Option AppError
  PreSave : Post → Post
  ETAG_ROOT_VERSION : String

/-! ## Statements of the mapper -/

/-- The call `Insert(post)`: the primary key rejects a row whose id is already stored. -/
def insertPost (db : Db) (p : Post) : Except String Db :=
  if p.Id ∈ db.Posts.map Post.Id then .error "Duplicate entry for key PRIMARY"
  else .ok { db with Posts := db.Posts ++ [p] }

/-- The call `Update(&editPost)`: every column of the row with the post's id is
overwritten; a statement that matches no row is not an error. -/
def updatePost (db : Db) (p : Post) : Except String Db :=
  .ok { db with Posts := db.Posts.map fun r => if r.Id = p.Id then p else r }

/-- The statement `UPDATE Channels SET LastPostAt = ?, TotalMsgCount = TotalMsgCount + 1 WHERE Id = ?`. -/
def execChannelPosted (db : Db) (time : Int) (channelId : String) : Db :=
  { db with Channels := db.Channels.map fun c =>
      if c.Id = channelId then { c with LastPostAt := time, TotalMsgCount := c.TotalMsgCount + 1 }
      else c }

/-- The statement `UPDATE Channels SET LastPostAt = ? WHERE Id = ?`. -/
def execChannelTouched (db : Db) (time : Int) (channelId : String) : Db :=
  { db with Channels := db.Channels.map fun c =>
      if c.Id = channelId then { c with LastPostAt := time } else c }

/-- The statement `UPDATE Posts SET UpdateAt = ? WHERE Id = ?`. -/
def execPostTouched (db : Db) (time : Int) (id : String) : Db :=
  { db with Posts := db.Posts.map fun r => if r.Id = id then { r with UpdateAt := time } else r }

/-- The statement `Update Posts SET DeleteAt = ?, UpdateAt = ? WHERE Id = ? OR ParentId = ? OR RootId = ?`. -/
def execDelete (db : Db) (time : Int) (postId : String) : Db :=
  { db with Posts := db.Posts.map fun r =>
      if r.Id = postId ∨ r.ParentId = postId ∨ r.RootId = postId then
        { r with DeleteAt := time, UpdateAt := time }
      else r }

/-! ## Store operations -/

/-- The operation `SqlPostStore.Save`.  `time` is the clock reading taken after the
insert.  Returns the result, the tables and the caller's post. -/
def Save (m : Model) (db : Db) (post : Post) (time : Int) : StoreResult Post × Db × Post :=
  if post.Id.length > 0 then
    ({ Data := none,
       Err := some (NewAppError "SqlPostStore.Save" "You cannot update an existing Post"
         ("id=" ++ post.Id)) }, db, post)
  else
    let post := m.PreSave post
    match m.IsValid post with
    | some e => ({ Data := none, Err := some e }, db, post)
    | none =>
      match insertPost db post with
      | .error err =>
        ({ Data := none,
           Err := some (NewAppError "SqlPostStore.Save" "We couldn't save the Post"
             ("id=" ++ post.Id ++ ", " ++ err)) }, db, post)
      | .ok db1 =>
        let db2 := execChannelPosted db1 time post.ChannelId
        let db3 := if post.RootId.length > 0 then execPostTouched db2 time post.RootId else db2
        ({ Data := some post, Err := none }, db3, post)

/-- The copy `editPost` that `Update` builds: `oldPost` with message, update time and
hashtags replaced. -/
def editedCopy (oldPost : Post) (newMessage newHashtags : String) (now : Int) : Post :=
  { oldPost with Message := newMessage, UpdateAt := now, Hashtags := newHashtags }

/-- What `Update` writes into the caller's `oldPost`: deleted and updated at the edit
time, its former id kept as `OriginalId`, and a new id. -/
def tombstone (oldPost : Post) (editTime : Int) (newId : String) : Post :=
  { oldPost with DeleteAt := editTime, UpdateAt := editTime, OriginalId := oldPost.Id,
                 Id := newId }

/-- The operation `SqlPostStore.Update`.  `now` and `time` are the two clock readings
and `newId` is the value of `model.NewId()`.  Returns the result, the tables and the
caller's `oldPost`, which the operation rewrites through its pointer. -/
def Update (m : Model) (db : Db) (oldPost : Post) (newMessage newHashtags : String)
    (now : Int) (newId : String) (time : Int) : StoreResult Post × Db × Post :=
  let editPost : Post := editedCopy oldPost newMessage newHashtags now
  let oldPost : Post := tombstone oldPost editPost.UpdateAt newId
  match m.IsValid editPost with
  | some e => ({ Data := none, Err := some e }, db, oldPost)
  | none =>
    match updatePost db editPost with
    | .error err =>
      ({ Data := none,
         Err := some (NewAppError "SqlPostStore.Update" "We couldn't update the Post"
           ("id=" ++ editPost.Id ++ ", " ++ err)) }, db, oldPost)
    | .ok db1 =>
      let db2 := execChannelTouched db1 time editPost.ChannelId
      let db3 :=
        if editPost.RootId.length > 0 then execPostTouched db2 time editPost.RootId else db2
      let db4 :=
        match insertPost db3 oldPost with
        | .ok d => d
        | .error _ => db3
      ({ Data := some editPost, Err := none }, db4, oldPost)

/-- The thread root `Get` computes from the post it looked up. -/
def threadRoot (post : Post) : String :=
  if post.RootId = "" then post.Id else post.RootId

/-- The operation `SqlPostStore.Get`. -/
def Get (db : Db) (id : String) : StoreResult PostList :=
  let pl : PostList := { Order := [], Posts := [] }
  let found := SelectOne (db.Posts.filter fun r => r.Id = id ∧ r.DeleteAt = 0)
  let post : Post :=
    match found with
    | .ok r => r
    | .error _ => Post.zero
  let err1 : Option AppError :=
    match found with
    | .ok _ => none
    | .error err =>
      some (NewAppError "SqlPostStore.GetPost" "We couldn't get the post" ("id=" ++ id ++ err))
  let post := withFileUrls post
  let pl := (pl.AddPost post).AddOrder id
  let rootId := threadRoot post
  let selected : Except String (List Post) :=
    .ok (db.Posts.filter fun r => (r.Id = rootId ∨ r.RootId = rootId) ∧ r.DeleteAt = 0)
  match selected with
  | .error err =>
    { Data := some pl,
      Err := some (NewAppError "SqlPostStore.GetPost" "We couldn't get the post"
        ("root_id=" ++ rootId ++ err)) }
  | .ok posts => { Data := some (posts.foldl PostList.AddPost pl), Err := err1 }

/-- The verb `%v` on an `int64`: decimal digits, with a leading minus sign below zero. -/
def fmtInt : Int → String
  | Int.ofNat n => Nat.repr n
  | Int.negSucc n => "-" ++ Nat.repr (n + 1)

/-- The operation `SqlPostStore.GetEtag`; `millis` is the clock reading. -/
def GetEtag (m : Model) (db : Db) (channelId : String) (millis : Int) : StoreResult String :=
  let rows := ((orderByUpdateAtDesc (db.Posts.filter fun r => r.ChannelId = channelId)).take 1).map
    fun r => (r.Id, r.UpdateAt)
  match SelectOne rows with
  | .error _ => { Data := some (m.ETAG_ROOT_VERSION ++ ".0." ++ fmtInt millis), Err := none }
  | .ok et =>
    { Data := some (m.ETAG_ROOT_VERSION ++ "." ++ et.1 ++ "." ++ fmtInt et.2), Err := none }

/-- The operation `SqlPostStore.Delete`. It sends a result without data. -/
def Delete (db : Db) (postId : String) (time : Int) : StoreResult Unit × Db :=
  let executed : Except String Db := .ok (execDelete db time postId)
  match executed with
  | .error err =>
    ({ Data := none,
       Err := some (NewAppError "SqlPostStore.Delete" "We couldn't delete the post"
         ("id=" ++ postId ++ ", err=" ++ err)) }, db)
  | .ok db1 => ({ Data := none, Err := none }, db1)

/-- The page window: `SELECT ... WHERE ChannelId = ? AND DeleteAt = 0 ORDER BY CreateAt DESC LIMIT ?,?`. -/
def pageWindow (db : Db) (channelId : String) (offset limit : Int) : Except String (List Post) :=
  sqlLimit offset limit
    (orderByCreateAtDesc (db.Posts.filter fun r => r.ChannelId = channelId ∧ r.DeleteAt = 0))

/-- The sub-query `SqlPostStore.getRootPosts`. -/
def getRootPosts (db : Db) (channelId : String) (offset limit : Int) : StoreResult (List Post) :=
  match pageWindow db channelId offset limit with
  | .error err =>
    { Data := none,
      Err := some (NewAppError "SqlPostStore.GetLinearPosts"
        "We couldn't get the posts for the channel" ("channelId=" ++ channelId ++ err)) }
  | .ok posts => { Data := some posts, Err := none }

/-- The join of `getParentsPosts`: every row `q2` of `Posts` once for each row of `q1`
with the same `RootId`, then the `WHERE` clause and the final `ORDER BY CreateAt`. -/
def joinOnRootId (db : Db) (channelId : String) (q1 : List String) : List Post :=
  orderByCreateAt
    ((db.Posts.flatMap fun q2 => (q1.filter fun r => r = q2.RootId).map fun _ => q2).filter
      fun q2 => q2.ChannelId = channelId ∧ q2.DeleteAt = 0)

/-- The sub-query `SqlPostStore.getParentsPosts`: `q3` is the `RootId` column of the
page window and `q1` its distinct values. -/
def getParentsPosts (db : Db) (channelId : String) (offset limit : Int) :
    StoreResult (List Post) :=
  match pageWindow db channelId offset limit with
  | .error err =>
    { Data := none,
      Err := some (NewAppError "SqlPostStore.GetLinearPosts"
        "We couldn't get the parent post for the channel" ("channelId=" ++ channelId ++ err)) }
  | .ok q3 => { Data := some (joinOnRootId db channelId (q3.map Post.RootId).dedup), Err := none }

/-- The part of `GetPosts` that runs once both sub-queries have answered. -/
def mergePosts (rpr cpr : StoreResult (List Post)) : StoreResult PostList :=
  match rpr.Err with
  | some e => { Data := none, Err := some e }
  | none =>
    match cpr.Err with
    | some e => { Data := none, Err := some e }
    | none =>
      let posts := rpr.Data.getD []
      let parents := cpr.Data.getD []
      let list : PostList := { Order := [], Posts := [] }
      let list := posts.foldl (fun l p => (l.AddPost (withFileUrls p)).AddOrder p.Id) list
      let list := parents.foldl (fun l p => l.AddPost (withFileUrls p)) list
      { Data := some list.MakeNonNil, Err := none }

/-- The operation `SqlPostStore.GetPosts`. -/
def GetPosts (db : Db) (channelId : String) (offset limit : Int) : StoreResult PostList :=
  if limit > 1000 then
    { Data := none,
      Err := some (NewAppError "SqlPostStore.GetLinearPosts" "Limit exceeded for paging"
        ("channelId=" ++ channelId)) }
  else
    mergePosts (getRootPosts db channelId offset limit) (getParentsPosts db channelId offset limit)

/-- The call `strings.Split(s, " ")`. -/
def Split (s : String) : List String :=
  (s.toList.splitOn ' ').map String.mk

/-- The lookup `termMap[tag]` in a `map[string]bool`; a missing key reads as false. -/
def termMapGet (termMap : List (String × Bool)) (tag : String) : Bool :=
  match termMap with
  | [] => false
  | (k, v) :: rest => if k = tag then v else termMapGet rest tag

/-- The assignment `termMap[term] = true`. -/
def termMapSet (termMap : List (String × Bool)) (term : String) : List (String × Bool) :=
  match termMap with
  | [] => [(term, true)]
  | (k, v) :: rest => if k = term then (k, true) :: rest else (k, v) :: termMapSet rest term

/-- The map `termMap` that `Search` builds before it queries. -/
def buildTermMap (terms : String) (isHashtagSearch : Bool) : List (String × Bool) :=
  if isHashtagSearch then (Split terms).foldl termMapSet [] else []

/-- The inner loop of `Search` over the tags of one candidate. -/
def exactMatch (termMap : List (String × Bool)) (p : Post) : Bool :=
  (Split p.Hashtags).foldl (fun found tag => if termMapGet termMap tag then true else found) false

/-- The operation `SqlPostStore.Search` after its query: `selected` is what the
full-text `SELECT` returned, which the database computes from `teamId`, `userId`
and the terms with every `@` replaced by a space. -/
def Search (selected : Except String (List Post)) (teamId : String) (terms : String)
    (isHashtagSearch : Bool) : StoreResult PostList :=
  let termMap := buildTermMap terms isHashtagSearch
  let searchType := if isHashtagSearch then "Hashtags" else "Message"
  match selected with
  | .error err =>
    { Data := none,
      Err := some (NewAppError "SqlPostStore.Search"
        "We encounted an error while searching for posts" ("teamId=" ++ teamId ++ ", err=" ++ err)) }
  | .ok posts =>
    let list : PostList := { Order := [], Posts := [] }
    let list := posts.foldl (fun l p =>
      if searchType = "Hashtags" ∧ exactMatch termMap p = false then l
      else (l.AddPost p).AddOrder p.Id) list
    { Data := some list.MakeNonNil, Err := none }

/-! ## Sample tables -/

/-- A live post of channel `c1` written by user `u1`; a reply names its root as parent. -/
def samplePost (id rootId : String) (createAt : Int) : Post :=
  { Post.zero with Id := id, UserId := "u1", ChannelId := "c1", RootId := rootId,
                   ParentId := rootId, CreateAt := createAt, UpdateAt := createAt }

/-- A channel holding one thread: root `r` and its replies `p` and `s`, oldest first. -/
def pageDb : Db :=
  { Posts := [samplePost "r" "" 1, samplePost "p" "r" 2, samplePost "s" "r" 3],
    Channels := [{ Id := "c1", LastPostAt := 3, TotalMsgCount := 3 }] }

/-- A channel holding one root post that carries two images and no stored file names. -/
def imageDb : Db :=
  { Posts := [{ samplePost "r" "" 1 with ImgCount := 2 }],
    Channels := [{ Id := "c1", LastPostAt := 1, TotalMsgCount := 1 }] }

/-- Modelled from the spec: a validator after §4.1, which rejects a post when a size
bound is violated, when a required id is missing, or when `CreateAt <= 0`.  The source
of `Post.IsValid` is not among the sources; the sample only instantiates theorems
that hold for every validator. -/
def sampleIsValid (p : Post) : Option AppError :=
  if p.Id.length = 0 ∨ p.Id.length > 26 ∨ p.UserId.length = 0 ∨ p.UserId.length > 26 ∨
      p.ChannelId.length = 0 ∨ p.ChannelId.length > 26 ∨ p.RootId.length > 26 ∨
      p.ParentId.length > 26 ∨ p.Message.length > 4000 ∨ p.Hashtags.length > 1000 ∨
      p.CreateAt ≤ 0 then
    some (NewAppError "Post.IsValid" "Invalid post" "")
  else none

/-- Modelled from the spec: `PreSave` after §4.1, which assigns a fresh id if the post has
none and sets `CreateAt = UpdateAt = now`. -/
def samplePreSave (newId : String) (now : Int) (p : Post) : Post :=
  { p with Id := if p.Id = "" then newId else p.Id, CreateAt := now, UpdateAt := now }

/-- A sample of package `model`. -/
def sampleModel : Model :=
  { IsValid := sampleIsValid, PreSave := samplePreSave "n0" 100, ETAG_ROOT_VERSION := "10" }

/-- A channel whose only post was deleted at time 7. -/
def etagDb : Db :=
  { Posts := [{ samplePost "r" "" 1 with UpdateAt := 7, DeleteAt := 7 }],
    Channels := [{ Id := "c1", LastPostAt := 1, TotalMsgCount := 1 }] }

/-! ## The specification's reading of the hashtag filter -/

/-- The tokens of a string in the words of the specification (split on whitespace):
the maximal runs of characters that are not whitespace. -/
def whitespaceSeparated (s : String) : List String :=
  ((s.toList.splitOnP Char.isWhitespace).filter fun t => t ≠ []).map String.mk

/-- A search candidate with the given id and hashtags field. -/
def taggedPost (id hashtags : String) : Post :=
  { samplePost id "" 1 with Hashtags := hashtags }

/-! ## Counting what `Delete` changes -/

/-- The number of rows that are live in `before` and carry `DeleteAt = UpdateAt = now` at
the same position of `after`. -/
def softDeleted (before after : List Post) (now : Int) : Nat :=
  ((before.zip after).filter fun ab =>
    ab.1.DeleteAt = 0 ∧ ab.2.DeleteAt = now ∧ ab.2.UpdateAt = now).length

/-- The sample thread together with a live post `q` of another thread `x` that names `r`
as its parent. -/
def deleteDb : Db :=
  { Posts := [samplePost "r" "" 1, samplePost "p" "r" 2,
              { samplePost "q" "x" 3 with ParentId := "r" }],
    Channels := [{ Id := "c1", LastPostAt := 3, TotalMsgCount := 3 }] }

/-- Two channels with one live root post each, a live reply to the first root, and a
deleted post `gone`. -/
def twoChannelDb : Db :=
  { Posts := [samplePost "r" "" 1, samplePost "p" "r" 2,
              { samplePost "b" "" 3 with ChannelId := "c2" },
              { samplePost "gone" "" 4 with DeleteAt := 5, UpdateAt := 5 }],
    Channels := [{ Id := "c1", LastPostAt := 4, TotalMsgCount := 3 },
                 { Id := "c2", LastPostAt := 3, TotalMsgCount := 1 }] }

/-! ## The post map -/

theorem mapGet_mapSet_self (k : String) (v : Post) (m : List (String × Post)) :
    mapGet k (mapSet k v m) = some v := by
  induction m with
  | nil => simp [mapSet, mapGet]
  | cons kv rest ih =>
    obtain ⟨k0, v0⟩ := kv
    by_cases h : k0 = k
    · simp [mapSet, mapGet, h]
    · simp [mapSet, mapGet, h, ih]

theorem mapGet_mapSet_of_ne {k k1 : String} (h : k ≠ k1) (v : Post) (m : List (String × Post)) :
    mapGet k1 (mapSet k v m) = mapGet k1 m := by
  induction m with
  | nil => simp [mapSet, mapGet, h]
  | cons kv rest ih =>
    obtain ⟨k0, v0⟩ := kv
    by_cases h0 : k0 = k
    · subst h0
      simp [mapSet, mapGet, h]
    · by_cases h1 : k0 = k1
      · subst h1
        simp [mapSet, mapGet, h0]
      · simp [mapSet, mapGet, h0, h1, ih]

theorem mapGet_isSome_iff (k : String) (m : List (String × Post)) :
    (mapGet k m).isSome ↔ k ∈ m.map Prod.fst := by
  induction m with
  | nil => simp [mapGet]
  | cons kv rest ih =>
    obtain ⟨k0, v0⟩ := kv
    by_cases h : k0 = k
    · simp [mapGet, h]
    · have h2 : ¬ k = k0 := fun e => h e.symm
      simp [mapGet, h, h2, ih]

theorem keys_mapSet_nodup (k : String) (v : Post) (m : List (String × Post))
    (h : (m.map Prod.fst).Nodup) : ((mapSet k v m).map Prod.fst).Nodup := by
  induction m with
  | nil => simp [mapSet]
  | cons kv rest ih =>
    obtain ⟨k0, v0⟩ := kv
    simp only [List.map_cons, List.nodup_cons] at h
    by_cases h0 : k0 = k
    · subst h0
      simp only [mapSet, if_true, List.map_cons, List.nodup_cons]
      exact h
    · simp only [mapSet, h0, if_false, List.map_cons, List.nodup_cons]
      refine ⟨?_, ih h.2⟩
      intro hmem
      have h3 := (mapGet_isSome_iff k0 (mapSet k v rest)).2 hmem
      rw [mapGet_mapSet_of_ne (fun e => h0 e.symm)] at h3
      exact h.1 ((mapGet_isSome_iff k0 rest).1 h3)

/-- Folding map assignments over a list of posts: the value under a key is the image of
the last post of the list with that id, and the old value if there is none. -/
theorem mapGet_foldl_mapSet (f : Post → Post) (hf : ∀ p, (f p).Id = p.Id) (k : String) :
    ∀ (ps : List Post) (m : List (String × Post)),
      mapGet k (ps.foldl (fun acc p => mapSet (f p).Id (f p) acc) m) =
        match ps.reverse.find? (fun p => p.Id = k) with
        | some p => some (f p)
        | none => mapGet k m := by
  intro ps
  induction ps using List.reverseRecOn with
  | nil => intro m; simp
  | append_singleton ps p ih =>
    intro m
    rw [List.foldl_append]
    simp only [List.foldl_cons, List.foldl_nil, List.reverse_append, List.reverse_cons,
      List.reverse_nil, List.nil_append, List.singleton_append, List.find?_cons]
    by_cases h : p.Id = k
    · simp only [h, decide_True]
      rw [hf p, h, mapGet_mapSet_self]
    · simp only [h, decide_False]
      rw [mapGet_mapSet_of_ne (by rw [hf p]; exact h)]
      exact ih m

theorem find?_reverse_of_nodup {ps : List Post} (hnd : (ps.map Post.Id).Nodup) {p : Post}
    (hp : p ∈ ps) : ps.reverse.find? (fun q => q.Id = p.Id) = some p := by
  induction ps using List.reverseRecOn with
  | nil => simp at hp
  | append_singleton ps q ih =>
    simp only [List.reverse_append, List.reverse_cons, List.reverse_nil, List.nil_append,
      List.singleton_append, List.find?_cons]
    rw [List.map_append, List.nodup_append] at hnd
    by_cases h : q.Id = p.Id
    · simp only [h, decide_True]
      rcases List.mem_append.1 hp with h1 | h1
      · exfalso
        exact hnd.2.2 (List.mem_map_of_mem Post.Id h1) (by simp [h])
      · simp at h1; rw [h1]
    · simp only [h, decide_False]
      rcases List.mem_append.1 hp with h1 | h1
      · exact ih hnd.1 h1
      · simp at h1; subst h1; exact absurd rfl h

theorem find?_reverse_eq_none {ps : List Post} {k : String} (h : k ∉ ps.map Post.Id) :
    ps.reverse.find? (fun q => q.Id = k) = none := by
  rw [List.find?_eq_none]
  intro q hq
  simp only [decide_eq_true_eq]
  intro e
  exact h (List.mem_map.2 ⟨q, List.mem_reverse.1 hq, e⟩)
/-! ## Post lists -/

theorem foldl_AddPost_Posts (g : Post → Post) (ps : List Post) (l : PostList) :
    (ps.foldl (fun acc p => acc.AddPost (g p)) l).Posts =
      ps.foldl (fun acc p => mapSet (g p).Id (g p) acc) l.Posts := by
  induction ps generalizing l with
  | nil => rfl
  | cons p ps ih => simp only [List.foldl_cons]; rw [ih]; rfl

theorem foldl_AddPost_Order (g : Post → Post) (ps : List Post) (l : PostList) :
    (ps.foldl (fun acc p => acc.AddPost (g p)) l).Order = l.Order := by
  induction ps generalizing l with
  | nil => rfl
  | cons p ps ih => simp only [List.foldl_cons]; rw [ih]; rfl

theorem foldl_AddPost_AddOrder_Posts (g : Post → Post) (ps : List Post) (l : PostList) :
    (ps.foldl (fun acc p => (acc.AddPost (g p)).AddOrder p.Id) l).Posts =
      ps.foldl (fun acc p => mapSet (g p).Id (g p) acc) l.Posts := by
  induction ps generalizing l with
  | nil => rfl
  | cons p ps ih => simp only [List.foldl_cons]; rw [ih]; rfl

theorem foldl_AddPost_AddOrder_Order (g : Post → Post) (ps : List Post) (l : PostList) :
    (ps.foldl (fun acc p => (acc.AddPost (g p)).AddOrder p.Id) l).Order =
      l.Order ++ ps.map Post.Id := by
  induction ps generalizing l with
  | nil => simp
  | cons p ps ih =>
    simp only [List.foldl_cons]; rw [ih]
    simp [PostList.AddPost, PostList.AddOrder]

theorem withFileUrls_Id (p : Post) : (withFileUrls p).Id = p.Id := by
  unfold withFileUrls; split <;> rfl

theorem withFileUrls_RootId (p : Post) : (withFileUrls p).RootId = p.RootId := by
  unfold withFileUrls; split <;> rfl

theorem threadRoot_withFileUrls (p : Post) : threadRoot (withFileUrls p) = threadRoot p := by
  unfold threadRoot; rw [withFileUrls_Id, withFileUrls_RootId]

/-! ## Reading one row by its key -/

theorem filter_key_eq_singleton (P : Post → Prop) [DecidablePred P] :
    ∀ (rows : List Post), (rows.map Post.Id).Nodup → ∀ p ∈ rows, P p →
      rows.filter (fun r => r.Id = p.Id ∧ P r) = [p] := by
  intro rows
  induction rows with
  | nil => intro _ p hp; simp at hp
  | cons r rows ih =>
    intro hnd p hp hP
    simp only [List.map_cons, List.nodup_cons] at hnd
    rcases List.mem_cons.1 hp with h | h
    · subst h
      have hrest : rows.filter (fun r => r.Id = p.Id ∧ P r) = [] := by
        rw [List.filter_eq_nil_iff]
        intro q hq
        simp only [decide_eq_true_eq, not_and]
        intro e
        exact absurd (e ▸ List.mem_map_of_mem Post.Id hq) hnd.1
      rw [List.filter_cons, hrest]
      simp [hP]
    · have hne : ¬ r.Id = p.Id := by
        intro e
        exact hnd.1 (e ▸ List.mem_map_of_mem Post.Id h)
      simp only [List.filter_cons, hne, false_and, decide_False]
      exact ih hnd.2 p h hP

theorem nodup_ids_filter {rows : List Post} (h : (rows.map Post.Id).Nodup) (f : Post → Bool) :
    ((rows.filter f).map Post.Id).Nodup :=
  h.sublist ((List.filter_sublist rows).map Post.Id)

/-- What `Get` returns for the id of a live row of a table with unique ids. -/
theorem Get_of_live (db : Db) (hu : db.UniqueIds) (p : Post) (hp : p ∈ db.Posts)
    (hl : p.DeleteAt = 0) :
    Get db p.Id =
      { Data := some ((db.Posts.filter fun r =>
            (r.Id = threadRoot p ∨ r.RootId = threadRoot p) ∧ r.DeleteAt = 0).foldl
          PostList.AddPost { Order := [p.Id], Posts := [(p.Id, withFileUrls p)] }),
        Err := none } := by
  have hone : db.Posts.filter (fun r => r.Id = p.Id ∧ r.DeleteAt = 0) = [p] :=
    filter_key_eq_singleton (fun r => r.DeleteAt = 0) db.Posts hu p hp hl
  unfold Get
  simp only [hone, SelectOne, threadRoot_withFileUrls]
  simp [PostList.AddPost, PostList.AddOrder, mapSet, withFileUrls_Id]

theorem mapGet_Get_of_live (db : Db) (hu : db.UniqueIds) (p : Post) (hp : p ∈ db.Posts)
    (hl : p.DeleteAt = 0) :
    ∃ pl, Get db p.Id = { Data := some pl, Err := none } ∧ pl.Order = [p.Id] ∧
      ∀ k q, mapGet k pl.Posts = some q ↔
        (k = q.Id ∧ q ∈ db.Posts ∧ q.DeleteAt = 0 ∧
          (q.Id = threadRoot p ∨ q.RootId = threadRoot p)) := by
  refine ⟨_, Get_of_live db hu p hp hl, ?_, ?_⟩
  · exact foldl_AddPost_Order id _ _
  · intro k q
    have hfold := foldl_AddPost_Posts id
      (db.Posts.filter fun r => (r.Id = threadRoot p ∨ r.RootId = threadRoot p) ∧ r.DeleteAt = 0)
      { Order := [p.Id], Posts := [(p.Id, withFileUrls p)] }
    have hget := mapGet_foldl_mapSet id (fun _ => rfl) k
      (db.Posts.filter fun r => (r.Id = threadRoot p ∨ r.RootId = threadRoot p) ∧ r.DeleteAt = 0)
      [(p.Id, withFileUrls p)]
    simp only [id] at hfold hget
    rw [hfold, hget]
    have hnd := nodup_ids_filter hu
      (fun r => decide ((r.Id = threadRoot p ∨ r.RootId = threadRoot p) ∧ r.DeleteAt = 0))
    have hpin : p ∈ db.Posts.filter
        (fun r => decide ((r.Id = threadRoot p ∨ r.RootId = threadRoot p) ∧ r.DeleteAt = 0)) := by
      rw [List.mem_filter]
      refine ⟨hp, ?_⟩
      simp only [decide_eq_true_eq]
      refine ⟨?_, hl⟩
      unfold threadRoot
      by_cases h : p.RootId = "" <;> simp [h]
    constructor
    · intro h
      cases hf : (db.Posts.filter (fun r => decide ((r.Id = threadRoot p ∨ r.RootId = threadRoot p)
          ∧ r.DeleteAt = 0))).reverse.find? (fun r => r.Id = k) with
      | some q1 =>
        rw [hf] at h
        simp only [id, Option.some.injEq] at h
        subst h
        have h1 := List.find?_some hf
        have h2 := List.mem_reverse.1 (List.mem_of_find?_eq_some hf)
        rw [List.mem_filter] at h2
        simp only [decide_eq_true_eq] at h1 h2
        exact ⟨h1.symm, h2.1, h2.2.2, h2.2.1⟩
      | none =>
        exfalso
        rw [hf] at h
        simp only [mapGet] at h
        split at h
        · rename_i hk
          rw [← hk, find?_reverse_of_nodup hnd hpin] at hf
          exact Option.noConfusion hf
        · exact Option.noConfusion h
    · rintro ⟨hk, hq, hql, hroot⟩
      subst hk
      have hqin : q ∈ db.Posts.filter
          (fun r => decide ((r.Id = threadRoot p ∨ r.RootId = threadRoot p) ∧ r.DeleteAt = 0)) := by
        rw [List.mem_filter]
        exact ⟨hq, by simp only [decide_eq_true_eq]; exact ⟨hroot, hql⟩⟩
      rw [find?_reverse_of_nodup hnd hqin]
/-! ## Channel pages -/

theorem keys_foldl_mapSet_nodup (f : Post → Post) (ps : List Post) :
    ∀ m : List (String × Post), (m.map Prod.fst).Nodup →
      ((ps.foldl (fun acc p => mapSet (f p).Id (f p) acc) m).map Prod.fst).Nodup := by
  induction ps with
  | nil => intro m h; exact h
  | cons p ps ih => intro m h; exact ih _ (keys_mapSet_nodup _ _ m h)

theorem mergePosts_of_ok (a b : List Post) :
    mergePosts { Data := some a, Err := none } { Data := some b, Err := none } =
      { Data := some (b.foldl (fun (l : PostList) p => l.AddPost (withFileUrls p))
          (a.foldl (fun (l : PostList) p => (l.AddPost (withFileUrls p)).AddOrder p.Id)
            { Order := [], Posts := [] })),
        Err := none } := by
  simp [mergePosts, PostList.MakeNonNil]

/-- The value the merged map holds under a key: the last row of (b) with that id,
otherwise the last row of (a) with that id, each with its attachment URLs derived. -/
theorem mapGet_merged (a b : List Post) (k : String) :
    mapGet k (b.foldl (fun (l : PostList) p => l.AddPost (withFileUrls p))
        (a.foldl (fun (l : PostList) p => (l.AddPost (withFileUrls p)).AddOrder p.Id)
          { Order := [], Posts := [] })).Posts =
      match b.reverse.find? (fun p => p.Id = k) with
      | some p => some (withFileUrls p)
      | none =>
        match a.reverse.find? (fun p => p.Id = k) with
        | some p => some (withFileUrls p)
        | none => none := by
  rw [foldl_AddPost_Posts, foldl_AddPost_AddOrder_Posts,
    mapGet_foldl_mapSet withFileUrls withFileUrls_Id,
    mapGet_foldl_mapSet withFileUrls withFileUrls_Id]
  rfl

theorem find?_reverse_isSome {ps : List Post} {k : String} (h : k ∈ ps.map Post.Id) :
    ∃ p, ps.reverse.find? (fun q => q.Id = k) = some p ∧ p ∈ ps ∧ p.Id = k := by
  obtain ⟨q, hq, hk⟩ := List.mem_map.1 h
  have hs : (ps.reverse.find? (fun q => decide (q.Id = k))).isSome = true :=
    List.find?_isSome.2 ⟨q, List.mem_reverse.2 hq, by simp [hk]⟩
  obtain ⟨p, hp⟩ := Option.isSome_iff_exists.1 hs
  refine ⟨p, hp, List.mem_reverse.1 (List.mem_of_find?_eq_some hp), ?_⟩
  have := List.find?_some hp
  simpa using this

theorem pageWindow_sorted (db : Db) (channelId : String) (offset limit : Int) (win : List Post)
    (h : pageWindow db channelId offset limit = .ok win) :
    win.Pairwise (fun x y => y.CreateAt ≤ x.CreateAt) := by
  unfold pageWindow sqlLimit at h
  split at h
  · exact Except.noConfusion h
  · injection h with h
    subst h
    haveI : IsTotal Post (fun a b => b.CreateAt ≤ a.CreateAt) := ⟨fun a b => le_total _ _⟩
    haveI : IsTrans Post (fun a b => b.CreateAt ≤ a.CreateAt) :=
      ⟨fun a b c hab hbc => le_trans hbc hab⟩
    have hs := List.sorted_insertionSort (fun a b : Post => b.CreateAt ≤ a.CreateAt)
      (db.Posts.filter fun r => r.ChannelId = channelId ∧ r.DeleteAt = 0)
    exact List.Pairwise.sublist ((List.take_sublist _ _).trans (List.drop_sublist _ _)) hs

theorem mem_joinOnRootId (db : Db) (channelId : String) (q1 : List String) (q : Post) :
    q ∈ joinOnRootId db channelId q1 ↔
      q ∈ db.Posts ∧ q.RootId ∈ q1 ∧ q.ChannelId = channelId ∧ q.DeleteAt = 0 := by
  unfold joinOnRootId orderByCreateAt
  rw [List.mem_insertionSort, List.mem_filter, List.mem_flatMap]
  simp only [List.mem_map, List.mem_filter, decide_eq_true_eq]
  constructor
  · rintro ⟨⟨q2, hq2, r, ⟨hr, hrq⟩, he⟩, hc, hd⟩
    subst he
    subst hrq
    exact ⟨hq2, hr, hc, hd⟩
  · rintro ⟨hq, hr, hc, hd⟩
    exact ⟨⟨q, hq, q.RootId, ⟨hr, rfl⟩, rfl⟩, hc, hd⟩
theorem getRootPosts_of_window {db : Db} {channelId : String} {offset limit : Int}
    {win : List Post} (h : pageWindow db channelId offset limit = .ok win) :
    getRootPosts db channelId offset limit = { Data := some win, Err := none } := by
  unfold getRootPosts; rw [h]

theorem getParentsPosts_of_window {db : Db} {channelId : String} {offset limit : Int}
    {win : List Post} (h : pageWindow db channelId offset limit = .ok win) :
    getParentsPosts db channelId offset limit =
      { Data := some (joinOnRootId db channelId (win.map Post.RootId).dedup), Err := none } := by
  unfold getParentsPosts; rw [h]

theorem GetPosts_of_window {db : Db} {channelId : String} {offset limit : Int}
    {win : List Post} (hlim : limit ≤ 1000)
    (h : pageWindow db channelId offset limit = .ok win) :
    GetPosts db channelId offset limit =
      mergePosts { Data := some win, Err := none }
        { Data := some (joinOnRootId db channelId (win.map Post.RootId).dedup), Err := none } := by
  unfold GetPosts
  rw [if_neg (not_lt.2 hlim), getRootPosts_of_window h, getParentsPosts_of_window h]

/-- C1 (as amended): in a table with unique ids, when a live post `w` lies in the page
window, every live post `q` of the channel that has the same `RootId` as `w` is in the
post map `GetPosts` returns, with its URLs derived, wherever `q` itself lies. -/
theorem GetPosts_includes_posts_sharing_RootId (db : Db) (hu : db.UniqueIds)
    (channelId : String) (offset limit : Int) (win : List Post) (w q : Post)
    (hlim : limit ≤ 1000) (hwin : pageWindow db channelId offset limit = .ok win)
    (hw : w ∈ win) (hq : q ∈ db.Posts) (hqc : q.ChannelId = channelId)
    (hql : q.DeleteAt = 0) (hroot : q.RootId = w.RootId) :
    ∃ pl, GetPosts db channelId offset limit = { Data := some pl, Err := none } ∧
      mapGet q.Id pl.Posts = some (withFileUrls q) := by
  refine ⟨_, (GetPosts_of_window hlim hwin).trans (mergePosts_of_ok _ _), ?_⟩
  have hqb : q ∈ joinOnRootId db channelId (win.map Post.RootId).dedup := by
    rw [mem_joinOnRootId]
    refine ⟨hq, ?_, hqc, hql⟩
    rw [List.mem_dedup, hroot]
    exact List.mem_map_of_mem Post.RootId hw
  obtain ⟨p, hfind, hpb, hpid⟩ := find?_reverse_isSome (List.mem_map_of_mem Post.Id hqb)
  have hget := mapGet_merged win (joinOnRootId db channelId (win.map Post.RootId).dedup) q.Id
  rw [hfind] at hget
  have hpdb : p ∈ db.Posts := ((mem_joinOnRootId db channelId _ p).1 hpb).1
  have hpq : p = q := List.inj_on_of_nodup_map hu hpdb hq hpid
  rw [hget, hpq]

theorem GetPosts_includes_posts_sharing_RootId_witness :
    ∃ pl, GetPosts pageDb "c1" 0 1 = { Data := some pl, Err := none } ∧
      mapGet (samplePost "p" "r" 2).Id pl.Posts = some (withFileUrls (samplePost "p" "r" 2)) :=
  GetPosts_includes_posts_sharing_RootId pageDb (by decide) "c1" 0 1 [samplePost "s" "r" 3]
    (samplePost "s" "r" 3) (samplePost "p" "r" 2) (by decide) (by decide) (by decide)
    (by decide) (by decide) (by decide) (by decide)

/-- C1 (as stated) fails: with offset 2 and limit 1 the page window of the sample channel
is its root `r` alone, and neither live reply of `r` is in the returned post map. -/
theorem GetPosts_omits_replies_of_window_root :
    pageWindow pageDb "c1" 2 1 = .ok [samplePost "r" "" 1] ∧
      samplePost "p" "r" 2 ∈ pageDb.Posts ∧
      (samplePost "p" "r" 2).ChannelId = "c1" ∧
      (samplePost "p" "r" 2).DeleteAt = 0 ∧
      (samplePost "p" "r" 2).RootId = (samplePost "r" "" 1).Id ∧
      (GetPosts pageDb "c1" 2 1).Err = none ∧
      (GetPosts pageDb "c1" 2 1).Data.map (fun pl => mapGet "p" pl.Posts) = some none := by
  decide
/-- C8: when both sub-queries succeed with rows (a) and (b), `GetPosts` returns a list
whose order is the ids of (a) as returned (newest first), whose map has exactly the ids
of (a) and of (b) as keys, each key once and each value stored under its own id; a post
found only in (b) is not in the order list. -/
theorem GetPosts_merges_both_results (db : Db) (channelId : String) (offset limit : Int)
    (a b : List Post) (hlim : limit ≤ 1000)
    (ha : getRootPosts db channelId offset limit = { Data := some a, Err := none })
    (hb : getParentsPosts db channelId offset limit = { Data := some b, Err := none }) :
    ∃ pl, GetPosts db channelId offset limit = { Data := some pl, Err := none } ∧
      pl.Order = a.map Post.Id ∧
      a.Pairwise (fun x y => y.CreateAt ≤ x.CreateAt) ∧
      (∀ k, (mapGet k pl.Posts).isSome ↔ k ∈ a.map Post.Id ∨ k ∈ b.map Post.Id) ∧
      (pl.Posts.map Prod.fst).Nodup ∧
      (∀ k e, mapGet k pl.Posts = some e → e.Id = k) ∧
      (∀ p ∈ b, p.Id ∉ a.map Post.Id → p.Id ∉ pl.Order) := by
  have hG : GetPosts db channelId offset limit =
      mergePosts { Data := some a, Err := none } { Data := some b, Err := none } := by
    unfold GetPosts
    rw [if_neg (not_lt.2 hlim), ha, hb]
  have hord : (b.foldl (fun (l : PostList) p => l.AddPost (withFileUrls p))
      (a.foldl (fun (l : PostList) p => (l.AddPost (withFileUrls p)).AddOrder p.Id)
        { Order := [], Posts := [] })).Order = a.map Post.Id := by
    rw [foldl_AddPost_Order, foldl_AddPost_AddOrder_Order]
    rfl
  refine ⟨_, hG.trans (mergePosts_of_ok a b), hord, ?_, ?_, ?_, ?_, ?_⟩
  · have hwin : pageWindow db channelId offset limit = .ok a := by
      unfold getRootPosts at ha
      split at ha
      · simp at ha
      · rename_i posts hposts
        simp only [StoreResult.mk.injEq, Option.some.injEq, and_true] at ha
        rw [hposts, ha]
    exact pageWindow_sorted db channelId offset limit a hwin
  · intro k
    rw [mapGet_merged]
    by_cases hkb : k ∈ b.map Post.Id
    · obtain ⟨p, hfind, _, _⟩ := find?_reverse_isSome hkb
      rw [hfind]
      simp [hkb]
    · rw [find?_reverse_eq_none hkb]
      by_cases hka : k ∈ a.map Post.Id
      · obtain ⟨p, hfind, _, _⟩ := find?_reverse_isSome hka
        rw [hfind]
        simp [hka]
      · rw [find?_reverse_eq_none hka]
        simp [hka, hkb]
  · rw [foldl_AddPost_Posts, foldl_AddPost_AddOrder_Posts]
    exact keys_foldl_mapSet_nodup _ _ _ (keys_foldl_mapSet_nodup _ _ _ (by simp))
  · intro k e he
    rw [mapGet_merged] at he
    by_cases hkb : k ∈ b.map Post.Id
    · obtain ⟨p, hfind, _, hpid⟩ := find?_reverse_isSome hkb
      rw [hfind] at he
      simp only [Option.some.injEq] at he
      rw [← he, withFileUrls_Id, hpid]
    · rw [find?_reverse_eq_none hkb] at he
      by_cases hka : k ∈ a.map Post.Id
      · obtain ⟨p, hfind, _, hpid⟩ := find?_reverse_isSome hka
        rw [hfind] at he
        simp only [Option.some.injEq] at he
        rw [← he, withFileUrls_Id, hpid]
      · rw [find?_reverse_eq_none hka] at he
        exact Option.noConfusion he
  · intro p _ hpa
    rw [hord]
    exact hpa

theorem GetPosts_merges_both_results_witness :
    ∃ pl, GetPosts pageDb "c1" 0 1 = { Data := some pl, Err := none } ∧
      pl.Order = [samplePost "s" "r" 3].map Post.Id ∧
      [samplePost "s" "r" 3].Pairwise (fun x y => y.CreateAt ≤ x.CreateAt) ∧
      (∀ k, (mapGet k pl.Posts).isSome ↔ k ∈ [samplePost "s" "r" 3].map Post.Id ∨
        k ∈ [samplePost "p" "r" 2, samplePost "s" "r" 3].map Post.Id) ∧
      (pl.Posts.map Prod.fst).Nodup ∧
      (∀ k e, mapGet k pl.Posts = some e → e.Id = k) ∧
      (∀ p ∈ [samplePost "p" "r" 2, samplePost "s" "r" 3],
        p.Id ∉ [samplePost "s" "r" 3].map Post.Id → p.Id ∉ pl.Order) :=
  GetPosts_merges_both_results pageDb "c1" 0 1 [samplePost "s" "r" 3]
    [samplePost "p" "r" 2, samplePost "s" "r" 3] (by decide) (by decide) (by decide)
/-! ## Threads -/

/-- C7: for a live row `p` of a table with unique ids, `Get p.Id` succeeds with order list
`[p.Id]` and a map that holds `p` under its id and whose entries are exactly the live
rows whose id or `RootId` is the thread root of `p`, each under its own id. -/
theorem Get_returns_thread_of_live_post (db : Db) (hu : db.UniqueIds) (p : Post)
    (hp : p ∈ db.Posts) (hl : p.DeleteAt = 0) :
    ∃ pl, Get db p.Id = { Data := some pl, Err := none } ∧ pl.Order = [p.Id] ∧
      mapGet p.Id pl.Posts = some p ∧
      ∀ k q, mapGet k pl.Posts = some q ↔
        (k = q.Id ∧ q ∈ db.Posts ∧ q.DeleteAt = 0 ∧
          (q.Id = (if p.RootId = "" then p.Id else p.RootId) ∨
           q.RootId = (if p.RootId = "" then p.Id else p.RootId))) := by
  obtain ⟨pl, hget, hord, hmap⟩ := mapGet_Get_of_live db hu p hp hl
  refine ⟨pl, hget, hord, ?_, hmap⟩
  rw [hmap]
  refine ⟨rfl, hp, hl, ?_⟩
  unfold threadRoot
  by_cases h : p.RootId = "" <;> simp [h]

theorem Get_returns_thread_of_live_post_witness :
    ∃ pl, Get pageDb (samplePost "p" "r" 2).Id = { Data := some pl, Err := none } ∧
      pl.Order = [(samplePost "p" "r" 2).Id] ∧
      mapGet (samplePost "p" "r" 2).Id pl.Posts = some (samplePost "p" "r" 2) ∧
      ∀ k q, mapGet k pl.Posts = some q ↔
        (k = q.Id ∧ q ∈ pageDb.Posts ∧ q.DeleteAt = 0 ∧
          (q.Id = (if (samplePost "p" "r" 2).RootId = "" then (samplePost "p" "r" 2).Id
              else (samplePost "p" "r" 2).RootId) ∨
           q.RootId = (if (samplePost "p" "r" 2).RootId = "" then (samplePost "p" "r" 2).Id
              else (samplePost "p" "r" 2).RootId))) :=
  Get_returns_thread_of_live_post pageDb (by decide) (samplePost "p" "r" 2) (by decide)
    (by decide)

/-- C2 (evaluated where it fails): the only row of the sample table is live and has
`ImgCount = 2`, so the derived URLs end in `1.png` and `2.png`; the entry `Get` returns
under its id carries the stored list of file names, which is empty. -/
theorem Get_entry_lacks_file_urls :
    imageDb.UniqueIds ∧
      imageDb.Posts = [{ samplePost "r" "" 1 with ImgCount := 2 }] ∧
      (withFileUrls { samplePost "r" "" 1 with ImgCount := 2 }).Filenames =
        ["/api/v1/files/get_image/c1/r/1.png", "/api/v1/files/get_image/c1/r/2.png"] ∧
      (Get imageDb "r").Err = none ∧
      (Get imageDb "r").Data.map (fun pl => (mapGet "r" pl.Posts).map Post.Filenames) =
        some (some []) := by
  decide
/-! ## Decimal rendering -/

theorem digitChar_toNat_sub (d : Nat) (h : d < 10) : (Nat.digitChar d).toNat - 48 = d := by
  interval_cases d <;> rfl

theorem digitChar_ne_minus (d : Nat) (h : d < 10) : Nat.digitChar d ≠ '-' := by
  interval_cases d <;> decide

theorem toDigitsCore_append (fuel : Nat) : ∀ (n : Nat) (ds : List Char),
    Nat.toDigitsCore 10 fuel n ds = Nat.toDigitsCore 10 fuel n [] ++ ds := by
  induction fuel with
  | zero => intro n ds; simp [Nat.toDigitsCore]
  | succ fuel ih =>
    intro n ds
    simp only [Nat.toDigitsCore]
    split
    · simp
    · rw [ih (n / 10) (Nat.digitChar (n % 10) :: ds), ih (n / 10) [Nat.digitChar (n % 10)]]
      simp

theorem digitsValue_toDigitsCore (fuel : Nat) : ∀ n, n < fuel →
    (Nat.toDigitsCore 10 fuel n []).foldl (fun a c => 10 * a + (c.toNat - 48)) 0 = n := by
  induction fuel with
  | zero => intro n h; omega
  | succ fuel ih =>
    intro n h
    simp only [Nat.toDigitsCore]
    split
    · rename_i h0
      simp only [List.foldl_cons, List.foldl_nil]
      rw [digitChar_toNat_sub _ (Nat.mod_lt _ (by decide))]
      omega
    · rename_i h0
      rw [toDigitsCore_append, List.foldl_append, ih (n / 10) (by omega)]
      simp only [List.foldl_cons, List.foldl_nil]
      rw [digitChar_toNat_sub _ (Nat.mod_lt _ (by decide))]
      omega

theorem toDigitsCore_head_ne_minus (fuel : Nat) : ∀ n, n < fuel →
    ∃ c rest, Nat.toDigitsCore 10 fuel n [] = c :: rest ∧ c ≠ '-' := by
  induction fuel with
  | zero => intro n h; omega
  | succ fuel ih =>
    intro n h
    simp only [Nat.toDigitsCore]
    split
    · exact ⟨_, [], rfl, digitChar_ne_minus _ (Nat.mod_lt _ (by decide))⟩
    · rename_i h0
      obtain ⟨c, rest, hc, hne⟩ := ih (n / 10) (by omega)
      rw [toDigitsCore_append, hc]
      exact ⟨c, rest ++ [Nat.digitChar (n % 10)], rfl, hne⟩

theorem Nat_repr_injective {a b : Nat} (h : Nat.repr a = Nat.repr b) : a = b := by
  have hd : Nat.toDigits 10 a = Nat.toDigits 10 b := by
    have := congrArg String.data h
    simpa [Nat.repr, List.asString] using this
  have ha := digitsValue_toDigitsCore (a + 1) a (Nat.lt_succ_self a)
  have hb := digitsValue_toDigitsCore (b + 1) b (Nat.lt_succ_self b)
  unfold Nat.toDigits at hd
  rw [hd] at ha
  exact ha.symm.trans hb

theorem Nat_repr_head_ne_minus (a : Nat) :
    ∃ c rest, (Nat.repr a).data = c :: rest ∧ c ≠ '-' := by
  obtain ⟨c, rest, hc, hne⟩ := toDigitsCore_head_ne_minus (a + 1) a (Nat.lt_succ_self a)
  exact ⟨c, rest, by simpa [Nat.repr, List.asString, Nat.toDigits] using hc, hne⟩

theorem fmtInt_injective {a b : Int} (h : fmtInt a = fmtInt b) : a = b := by
  have hdata := congrArg String.data h
  cases a with
  | ofNat m =>
    cases b with
    | ofNat n =>
      simp only [fmtInt] at h
      rw [Nat_repr_injective h]
    | negSucc n =>
      exfalso
      simp only [fmtInt, String.data_append] at hdata
      obtain ⟨c, rest, hc, hne⟩ := Nat_repr_head_ne_minus m
      rw [hc] at hdata
      have : c = '-' := by
        have h2 := congrArg List.head? hdata
        simpa using h2
      exact hne this
  | negSucc m =>
    cases b with
    | ofNat n =>
      exfalso
      simp only [fmtInt, String.data_append] at hdata
      obtain ⟨c, rest, hc, hne⟩ := Nat_repr_head_ne_minus n
      rw [hc] at hdata
      have : '-' = c := by
        have h2 := congrArg List.head? hdata
        simpa using h2
      exact hne this.symm
    | negSucc n =>
      simp only [fmtInt, String.data_append] at hdata
      have h3 : (Nat.repr (m + 1)).data = (Nat.repr (n + 1)).data := by
        simpa using hdata
      have h4 : Nat.repr (m + 1) = Nat.repr (n + 1) := String.ext h3
      have := Nat_repr_injective h4
      have hmn : m = n := by omega
      rw [hmn]

theorem String_append_right_injective (s : String) {a b : String} (h : s ++ a = s ++ b) :
    a = b := by
  have := congrArg String.data h
  simp only [String.data_append] at this
  exact String.ext (List.append_cancel_left this)
/-! ## Change tokens -/

theorem insertionSort_UpdateAt_head (rows : List Post) (x : Post) (rest : List Post)
    (h : orderByUpdateAtDesc rows = x :: rest) :
    x ∈ rows ∧ ∀ y ∈ rows, y.UpdateAt ≤ x.UpdateAt := by
  haveI : IsTotal Post (fun a b => b.UpdateAt ≤ a.UpdateAt) := ⟨fun a b => le_total _ _⟩
  haveI : IsTrans Post (fun a b => b.UpdateAt ≤ a.UpdateAt) :=
    ⟨fun a b c hab hbc => le_trans hbc hab⟩
  have hs := List.sorted_insertionSort (fun a b : Post => b.UpdateAt ≤ a.UpdateAt) rows
  have hmem : ∀ y, y ∈ x :: rest ↔ y ∈ rows := by
    intro y
    rw [← h]
    exact List.mem_insertionSort _
  unfold orderByUpdateAtDesc at h
  rw [h] at hs
  refine ⟨(hmem x).1 (List.mem_cons_self _ _), ?_⟩
  intro y hy
  rcases List.mem_cons.1 ((hmem y).2 hy) with e | e
  · rw [e]
  · exact List.rel_of_sorted_cons hs y e

theorem orderByUpdateAtDesc_eq_nil (rows : List Post) (h : orderByUpdateAtDesc rows = []) :
    rows = [] := by
  have := (List.perm_insertionSort (fun a b : Post => b.UpdateAt ≤ a.UpdateAt) rows).length_eq
  unfold orderByUpdateAtDesc at h
  rw [h] at this
  exact List.length_eq_zero.1 this.symm

/-- C3 (as amended): `GetEtag` looks at every row of the channel, live or deleted.  Either
the channel has no row at all, the token is the root version, `.0.` and the clock reading,
and a different clock reading gives a different token; or the token is the root version,
the id and the `UpdateAt` of a row of the channel whose `UpdateAt` is greatest. -/
theorem GetEtag_reads_all_rows (m : Model) (db : Db) (channelId : String) (millis : Int) :
    ((∀ r ∈ db.Posts, r.ChannelId ≠ channelId) ∧
      GetEtag m db channelId millis =
        { Data := some (m.ETAG_ROOT_VERSION ++ ".0." ++ fmtInt millis), Err := none } ∧
      ∀ later : Int, later ≠ millis →
        GetEtag m db channelId later ≠ GetEtag m db channelId millis) ∨
    (∃ r ∈ db.Posts, r.ChannelId = channelId ∧
      (∀ r1 ∈ db.Posts, r1.ChannelId = channelId → r1.UpdateAt ≤ r.UpdateAt) ∧
      GetEtag m db channelId millis =
        { Data := some (m.ETAG_ROOT_VERSION ++ "." ++ r.Id ++ "." ++ fmtInt r.UpdateAt),
          Err := none }) := by
  cases hsort : orderByUpdateAtDesc (db.Posts.filter fun r => r.ChannelId = channelId) with
  | nil =>
    left
    have hnil := orderByUpdateAtDesc_eq_nil _ hsort
    have hnone : ∀ r ∈ db.Posts, r.ChannelId ≠ channelId := by
      intro r hr e
      have : r ∈ db.Posts.filter (fun r => decide (r.ChannelId = channelId)) :=
        List.mem_filter.2 ⟨hr, by simpa using e⟩
      rw [hnil] at this
      exact List.not_mem_nil _ this
    have hval : ∀ t : Int, GetEtag m db channelId t =
        { Data := some (m.ETAG_ROOT_VERSION ++ ".0." ++ fmtInt t), Err := none } := by
      intro t
      unfold GetEtag
      simp only [hsort]
      rfl
    refine ⟨hnone, hval millis, ?_⟩
    intro later hne heq
    rw [hval later, hval millis] at heq
    simp only [StoreResult.mk.injEq, Option.some.injEq, and_true] at heq
    exact hne (fmtInt_injective (String_append_right_injective _ heq))
  | cons x rest =>
    right
    obtain ⟨hx, hmax⟩ := insertionSort_UpdateAt_head _ x rest hsort
    rw [List.mem_filter] at hx
    refine ⟨x, hx.1, by simpa using hx.2, ?_, ?_⟩
    · intro r1 hr1 hc
      exact hmax r1 (List.mem_filter.2 ⟨hr1, by simpa using hc⟩)
    · unfold GetEtag
      simp only [hsort]
      rfl

/-- C3 (as stated) fails: the sample channel has no live post, and the token is built
from the id and `UpdateAt` of its deleted post, not from `.0.` and the clock reading. -/
theorem GetEtag_counts_deleted_post :
    etagDb.Posts.filter (fun r => r.ChannelId = "c1" ∧ r.DeleteAt = 0) = [] ∧
      GetEtag sampleModel etagDb "c1" 99 = { Data := some "10.r.7", Err := none } ∧
      sampleModel.ETAG_ROOT_VERSION ++ ".0." ++ fmtInt 99 = "10.0.99" := by
  decide
/-! ## Search -/

theorem termMapGet_termMapSet (m : List (String × Bool)) (t tag : String) :
    termMapGet (termMapSet m t) tag = true ↔ tag = t ∨ termMapGet m tag = true := by
  induction m with
  | nil =>
    simp only [termMapSet, termMapGet]
    by_cases h : t = tag
    · simp [h]
    · have h2 : ¬ tag = t := fun e => h e.symm
      simp [h, h2]
  | cons kv rest ih =>
    obtain ⟨k, v⟩ := kv
    by_cases hk : k = t
    · subst hk
      by_cases h : k = tag
      · simp [termMapSet, termMapGet, h]
      · have h2 : ¬ tag = k := fun e => h e.symm
        simp [termMapSet, termMapGet, h, h2]
    · by_cases h : k = tag
      · subst h
        simp [termMapSet, termMapGet, hk]
      · simp only [termMapSet, hk, if_false, termMapGet, h]
        exact ih

theorem termMapGet_foldl (ts : List String) : ∀ (m : List (String × Bool)) (tag : String),
    termMapGet (ts.foldl termMapSet m) tag = true ↔ tag ∈ ts ∨ termMapGet m tag = true := by
  induction ts with
  | nil => intro m tag; simp
  | cons t ts ih =>
    intro m tag
    simp only [List.foldl_cons, List.mem_cons]
    rw [ih, termMapGet_termMapSet]
    constructor
    · rintro (h | h | h)
      · exact Or.inl (Or.inr h)
      · exact Or.inl (Or.inl h)
      · exact Or.inr h
    · rintro ((h | h) | h)
      · exact Or.inr (Or.inl h)
      · exact Or.inl h
      · exact Or.inr (Or.inr h)

theorem termMapGet_buildTermMap (terms tag : String) :
    termMapGet (buildTermMap terms true) tag = true ↔ tag ∈ Split terms := by
  unfold buildTermMap
  rw [if_pos rfl, termMapGet_foldl]
  simp [termMapGet]

theorem foldl_flag (c : String → Bool) (tags : List String) : ∀ b : Bool,
    tags.foldl (fun found tag => if c tag then true else found) b = true ↔
      b = true ∨ ∃ tag ∈ tags, c tag = true := by
  induction tags with
  | nil => intro b; simp
  | cons t tags ih =>
    intro b
    simp only [List.foldl_cons, List.mem_cons]
    rw [ih]
    by_cases hc : c t = true
    · simp [hc]
    · simp [hc]

theorem exactMatch_iff (terms : String) (p : Post) :
    exactMatch (buildTermMap terms true) p = true ↔
      ∃ tag ∈ Split p.Hashtags, tag ∈ Split terms := by
  unfold exactMatch
  rw [foldl_flag (fun tag => termMapGet (buildTermMap terms true) tag)]
  simp only [Bool.false_eq_true, false_or]
  constructor
  · rintro ⟨tag, ht, hm⟩
    exact ⟨tag, ht, (termMapGet_buildTermMap terms tag).1 hm⟩
  · rintro ⟨tag, ht, hm⟩
    exact ⟨tag, ht, (termMapGet_buildTermMap terms tag).2 hm⟩

theorem foldl_skip (skip : Post → Bool) (posts : List Post) : ∀ l : PostList,
    posts.foldl (fun l p => if skip p = true then l else (l.AddPost p).AddOrder p.Id) l =
      (posts.filter fun p => !skip p).foldl (fun l p => (l.AddPost p).AddOrder p.Id) l := by
  induction posts with
  | nil => intro l; rfl
  | cons p posts ih =>
    intro l
    by_cases h : skip p = true
    · simp [List.filter_cons, h, ih]
    · simp [List.filter_cons, h, ih]

theorem Search_hashtags_eq (posts : List Post) (teamId terms : String) :
    Search (.ok posts) teamId terms true =
      { Data := some ((posts.filter fun p => exactMatch (buildTermMap terms true) p).foldl
          (fun l p => (l.AddPost p).AddOrder p.Id) { Order := [], Posts := [] }),
        Err := none } := by
  unfold Search
  simp only [if_true, true_and, PostList.MakeNonNil]
  have h := foldl_skip (fun p => !exactMatch (buildTermMap terms true) p) posts
    { Order := [], Posts := [] }
  simp only [Bool.not_eq_true', Bool.not_not] at h
  rw [← h]
/-- C4 (as amended): with `isHashtagSearch` true and candidates with pairwise distinct ids,
a candidate is in the result (its id in the order list, itself in the map) exactly when one
of the pieces of its hashtags field cut at every single space equals one of the pieces of
the search terms cut at every single space, empty pieces included; terms `#foo #bar`
exclude hashtags `#foobar` and include hashtags `#bar #baz`. -/
theorem Search_keeps_exact_space_split_match (posts : List Post) (teamId terms : String)
    (hnd : (posts.map Post.Id).Nodup) (p : Post) (hp : p ∈ posts) :
    (∃ pl, Search (.ok posts) teamId terms true = { Data := some pl, Err := none } ∧
      (p.Id ∈ pl.Order ↔ ∃ tag ∈ Split p.Hashtags, tag ∈ Split terms) ∧
      (mapGet p.Id pl.Posts = some p ↔ ∃ tag ∈ Split p.Hashtags, tag ∈ Split terms)) ∧
    Search (.ok [taggedPost "a" "#foobar", taggedPost "b" "#bar #baz"]) teamId "#foo #bar" true =
      { Data := some { Order := ["b"], Posts := [("b", taggedPost "b" "#bar #baz")] },
        Err := none } := by
  refine ⟨⟨_, Search_hashtags_eq posts teamId terms, ?_⟩, ?_⟩
  · have hkeptnd := nodup_ids_filter hnd (fun p => exactMatch (buildTermMap terms true) p)
    have hback : p.Id ∈ (posts.filter fun p => exactMatch (buildTermMap terms true) p).map Post.Id →
        ∃ tag ∈ Split p.Hashtags, tag ∈ Split terms := by
      intro hmem
      obtain ⟨q, hq, hqid⟩ := List.mem_map.1 hmem
      rw [List.mem_filter] at hq
      have hqp : q = p := List.inj_on_of_nodup_map hnd hq.1 hp hqid
      rw [hqp] at hq
      exact (exactMatch_iff terms p).1 hq.2
    have hin : (∃ tag ∈ Split p.Hashtags, tag ∈ Split terms) →
        p ∈ posts.filter fun p => exactMatch (buildTermMap terms true) p := by
      intro hm
      exact List.mem_filter.2 ⟨hp, (exactMatch_iff terms p).2 hm⟩
    constructor
    · have hord := foldl_AddPost_AddOrder_Order id
        (posts.filter fun p => exactMatch (buildTermMap terms true) p)
        { Order := [], Posts := [] }
      simp only [id, List.nil_append] at hord
      rw [hord]
      exact ⟨hback, fun hm => List.mem_map_of_mem Post.Id (hin hm)⟩
    · have hfold := foldl_AddPost_AddOrder_Posts id
        (posts.filter fun p => exactMatch (buildTermMap terms true) p)
        { Order := [], Posts := [] }
      have hget := mapGet_foldl_mapSet id (fun _ => rfl) p.Id
        (posts.filter fun p => exactMatch (buildTermMap terms true) p) []
      simp only [id] at hfold hget
      rw [hfold, hget]
      constructor
      · intro h
        by_cases hmem : p.Id ∈
            (posts.filter fun p => exactMatch (buildTermMap terms true) p).map Post.Id
        · exact hback hmem
        · rw [find?_reverse_eq_none hmem] at h
          simp [mapGet] at h
      · intro hm
        rw [find?_reverse_of_nodup hkeptnd (hin hm)]
  · rw [Search_hashtags_eq]
    have : ([taggedPost "a" "#foobar", taggedPost "b" "#bar #baz"].filter
        fun p => exactMatch (buildTermMap "#foo #bar" true) p) = [taggedPost "b" "#bar #baz"] := by
      decide
    rw [this]
    rfl

theorem Search_keeps_exact_space_split_match_witness :
    (∃ pl, Search (.ok [taggedPost "a" "#foobar", taggedPost "b" "#bar #baz"]) "t"
        "#foo #bar" true = { Data := some pl, Err := none } ∧
      ((taggedPost "b" "#bar #baz").Id ∈ pl.Order ↔
        ∃ tag ∈ Split (taggedPost "b" "#bar #baz").Hashtags, tag ∈ Split "#foo #bar") ∧
      (mapGet (taggedPost "b" "#bar #baz").Id pl.Posts = some (taggedPost "b" "#bar #baz") ↔
        ∃ tag ∈ Split (taggedPost "b" "#bar #baz").Hashtags, tag ∈ Split "#foo #bar")) ∧
    Search (.ok [taggedPost "a" "#foobar", taggedPost "b" "#bar #baz"]) "t" "#foo #bar" true =
      { Data := some { Order := ["b"], Posts := [("b", taggedPost "b" "#bar #baz")] },
        Err := none } :=
  Search_keeps_exact_space_split_match [taggedPost "a" "#foobar", taggedPost "b" "#bar #baz"]
    "t" "#foo #bar" (by decide) (taggedPost "b" "#bar #baz") (by decide)

/-- C4 (as stated) fails: the terms `#foo` and `#bar` separated by a tab are two
whitespace-separated terms and the candidate's only tag `#bar` equals the second, yet
`Search` drops the candidate, because it cuts the terms at spaces only. -/
theorem Search_drops_match_behind_tab :
    whitespaceSeparated "#foo\t#bar" = ["#foo", "#bar"] ∧
      whitespaceSeparated (taggedPost "a" "#bar").Hashtags = ["#bar"] ∧
      Search (.ok [taggedPost "a" "#bar"]) "t" "#foo\t#bar" true =
        { Data := some { Order := [], Posts := [] }, Err := none } := by
  decide
/-! ## Writes -/

theorem String_length_pos_of_ne_empty {s : String} (h : s ≠ "") : s.length > 0 := by
  rcases Nat.eq_zero_or_pos s.length with h0 | h0
  · exfalso
    apply h
    apply String.ext
    exact List.length_eq_zero.1 h0
  · exact h0

/-- C10: `Save` of a post whose id is not empty returns the error of the first guard and
no data, whatever `PreSave` and `IsValid` are, and leaves both tables and the post as
they were. -/
theorem Save_rejects_post_with_id (m : Model) (db : Db) (post : Post) (time : Int)
    (h : post.Id ≠ "") :
    Save m db post time =
      ({ Data := none,
         Err := some (NewAppError "SqlPostStore.Save" "You cannot update an existing Post"
           ("id=" ++ post.Id)) }, db, post) := by
  unfold Save
  rw [if_pos (String_length_pos_of_ne_empty h)]

theorem Save_rejects_post_with_id_witness :
    Save sampleModel pageDb (samplePost "p" "r" 2) 50 =
      ({ Data := none,
         Err := some (NewAppError "SqlPostStore.Save" "You cannot update an existing Post"
           ("id=" ++ (samplePost "p" "r" 2).Id)) }, pageDb, samplePost "p" "r" 2) :=
  Save_rejects_post_with_id sampleModel pageDb (samplePost "p" "r" 2) 50 (by decide)

/-- C9: when the edited copy fails validation, `Update` returns that error and no data,
and both tables are as they were: no row updated, none inserted, no timestamp touched. -/
theorem Update_aborts_on_invalid_edit (m : Model) (db : Db) (oldPost : Post)
    (newMessage newHashtags : String) (now : Int) (newId : String) (time : Int)
    (e : AppError)
    (h : m.IsValid (editedCopy oldPost newMessage newHashtags now) = some e) :
    (Update m db oldPost newMessage newHashtags now newId time).1 =
        { Data := none, Err := some e } ∧
      (Update m db oldPost newMessage newHashtags now newId time).2.1 = db := by
  unfold Update
  simp only [h]
  exact ⟨trivial, trivial⟩

theorem Update_aborts_on_invalid_edit_witness :
    (Update sampleModel pageDb (samplePost "p" "r" 0) "new" "#h" 10 "n" 11).1 =
        { Data := none, Err := some (NewAppError "Post.IsValid" "Invalid post" "") } ∧
      (Update sampleModel pageDb (samplePost "p" "r" 0) "new" "#h" 10 "n" 11).2.1 = pageDb :=
  Update_aborts_on_invalid_edit sampleModel pageDb (samplePost "p" "r" 0) "new" "#h" 10 "n" 11
    (NewAppError "Post.IsValid" "Invalid post" "") (by decide)
theorem map_ids_of_preserving (f : Post → Post) (hf : ∀ r, (f r).Id = r.Id) (rows : List Post) :
    (rows.map f).map Post.Id = rows.map Post.Id := by
  rw [List.map_map]
  exact List.map_congr_left (fun r _ => hf r)

theorem insertPost_of_fresh (db : Db) (p : Post) (h : p.Id ∉ db.Posts.map Post.Id) :
    insertPost db p = .ok { db with Posts := db.Posts ++ [p] } := by
  unfold insertPost
  rw [if_neg h]

theorem execPostTouched_ids (db : Db) (time : Int) (id : String) :
    (execPostTouched db time id).Posts.map Post.Id = db.Posts.map Post.Id := by
  unfold execPostTouched
  apply map_ids_of_preserving
  intro r
  split <;> rfl

theorem execPostTouched_keeps (db : Db) (time : Int) (id : String) (row : Post)
    (h : row ∈ db.Posts) :
    ∃ r1 ∈ (execPostTouched db time id).Posts, r1.Id = row.Id ∧ r1.DeleteAt = row.DeleteAt ∧
      r1.Message = row.Message ∧ r1.Hashtags = row.Hashtags := by
  refine ⟨if row.Id = id then { row with UpdateAt := time } else row, ?_, ?_⟩
  · unfold execPostTouched
    exact List.mem_map.2 ⟨row, h, rfl⟩
  · split <;> exact ⟨rfl, rfl, rfl, rfl⟩

/-- The writes of a valid edit whose tombstone id is not stored yet: apart from the
tombstone, which is added last, the table keeps the ids it had, and the row under the
edited id carries the new message and hashtags. -/
theorem Update_of_valid (m : Model) (db : Db) (oldPost : Post) (newMessage newHashtags : String)
    (now : Int) (newId : String) (time : Int)
    (hvalid : m.IsValid (editedCopy oldPost newMessage newHashtags now) = none)
    (hfresh : newId ∉ db.Posts.map Post.Id) :
    ∃ db3 : Db,
      Update m db oldPost newMessage newHashtags now newId time =
        ({ Data := some (editedCopy oldPost newMessage newHashtags now), Err := none },
         { db3 with Posts := db3.Posts ++ [tombstone oldPost now newId] },
         tombstone oldPost now newId) ∧
      db3.Posts.map Post.Id = db.Posts.map Post.Id ∧
      (oldPost.Id ∈ db.Posts.map Post.Id →
        ∃ row ∈ db3.Posts, row.Id = oldPost.Id ∧ row.DeleteAt = oldPost.DeleteAt ∧
          row.Message = newMessage ∧ row.Hashtags = newHashtags) := by
  have hids1 : (db.Posts.map fun r =>
      if r.Id = (editedCopy oldPost newMessage newHashtags now).Id
      then editedCopy oldPost newMessage newHashtags now else r).map Post.Id =
      db.Posts.map Post.Id := by
    apply map_ids_of_preserving
    intro r
    split
    · rename_i h; exact h.symm
    · rfl
  have hrow1 : oldPost.Id ∈ db.Posts.map Post.Id →
      editedCopy oldPost newMessage newHashtags now ∈ db.Posts.map fun r =>
        if r.Id = (editedCopy oldPost newMessage newHashtags now).Id
        then editedCopy oldPost newMessage newHashtags now else r := by
    intro hmem
    obtain ⟨r, hr, hid⟩ := List.mem_map.1 hmem
    refine List.mem_map.2 ⟨r, hr, ?_⟩
    rw [if_pos]
    exact hid
  by_cases hroot : (editedCopy oldPost newMessage newHashtags now).RootId.length > 0
  · refine ⟨execPostTouched (execChannelTouched { db with Posts := db.Posts.map (fun r =>
          if r.Id = (editedCopy oldPost newMessage newHashtags now).Id then
            editedCopy oldPost newMessage newHashtags now else r) } time
        (editedCopy oldPost newMessage newHashtags now).ChannelId) time
        (editedCopy oldPost newMessage newHashtags now).RootId, ?_, ?_, ?_⟩
    · unfold Update
      simp only [hvalid, updatePost, hroot, if_true]
      rw [insertPost_of_fresh]
      · rfl
      · rw [execPostTouched_ids]
        show newId ∉ _
        simp only [execChannelTouched]
        rw [hids1]
        exact hfresh
    · rw [execPostTouched_ids]
      simp only [execChannelTouched]
      exact hids1
    · intro hmem
      obtain ⟨r1, hr1, h1, h2, h3, h4⟩ := execPostTouched_keeps
        (execChannelTouched { db with Posts := db.Posts.map (fun r =>
          if r.Id = (editedCopy oldPost newMessage newHashtags now).Id then
            editedCopy oldPost newMessage newHashtags now else r) } time
          (editedCopy oldPost newMessage newHashtags now).ChannelId) time
        (editedCopy oldPost newMessage newHashtags now).RootId
        (editedCopy oldPost newMessage newHashtags now) (hrow1 hmem)
      exact ⟨r1, hr1, h1, h2, h3, h4⟩
  · refine ⟨execChannelTouched { db with Posts := db.Posts.map (fun r =>
          if r.Id = (editedCopy oldPost newMessage newHashtags now).Id then
            editedCopy oldPost newMessage newHashtags now else r) } time
        (editedCopy oldPost newMessage newHashtags now).ChannelId, ?_, ?_, ?_⟩
    · unfold Update
      simp only [hvalid, updatePost, hroot, if_false]
      rw [insertPost_of_fresh]
      · rfl
      · show newId ∉ _
        simp only [execChannelTouched]
        rw [hids1]
        exact hfresh
    · simp only [execChannelTouched]
      exact hids1
    · intro hmem
      exact ⟨_, hrow1 hmem, rfl, rfl, rfl, rfl⟩
/-- C5: in a table with unique ids, a valid edit of the live row `oldPost` whose tombstone
id is not stored yet succeeds and returns `oldPost` with only message, hashtags and
`UpdateAt` replaced; afterwards the table is its former rows (same ids, same order)
followed by one new row, the tombstone, whose id is new, whose `DeleteAt` and `UpdateAt`
are the edit time, whose `OriginalId` is the edited id and which carries the old message
and hashtags; ids stay unique, and the row under the edited id is live, carries the new
message and hashtags, and is what `Get` returns under that id. -/
theorem Update_keeps_id_and_adds_tombstone (m : Model) (db : Db) (hu : db.UniqueIds)
    (oldPost : Post) (hin : oldPost ∈ db.Posts) (hlive : oldPost.DeleteAt = 0)
    (newMessage newHashtags : String) (now : Int) (newId : String) (time : Int)
    (hvalid : m.IsValid (editedCopy oldPost newMessage newHashtags now) = none)
    (hfresh : newId ∉ db.Posts.map Post.Id) :
    ∃ (edited : Post) (db1 : Db) (tomb : Post) (rows : List Post),
      Update m db oldPost newMessage newHashtags now newId time =
        ({ Data := some edited, Err := none }, db1, tomb) ∧
      edited = { oldPost with Message := newMessage, Hashtags := newHashtags,
                              UpdateAt := now } ∧
      db1.Posts = rows ++ [tomb] ∧ rows.map Post.Id = db.Posts.map Post.Id ∧
      db1.UniqueIds ∧
      tomb.Id ≠ oldPost.Id ∧ tomb.DeleteAt = edited.UpdateAt ∧
      tomb.UpdateAt = edited.UpdateAt ∧ tomb.OriginalId = oldPost.Id ∧
      tomb.Message = oldPost.Message ∧ tomb.Hashtags = oldPost.Hashtags ∧
      ∃ row ∈ db1.Posts, row.Id = oldPost.Id ∧ row.DeleteAt = 0 ∧
        row.Message = newMessage ∧ row.Hashtags = newHashtags ∧
        ∃ pl, Get db1 oldPost.Id = { Data := some pl, Err := none } ∧
          mapGet oldPost.Id pl.Posts = some row := by
  obtain ⟨db3, hupd, hids, hrow⟩ :=
    Update_of_valid m db oldPost newMessage newHashtags now newId time hvalid hfresh
  have hidin : oldPost.Id ∈ db.Posts.map Post.Id := List.mem_map_of_mem Post.Id hin
  obtain ⟨row, hrow3, hrid, hrdel, hrmsg, hrtags⟩ := hrow hidin
  have hu1 : Db.UniqueIds { db3 with Posts := db3.Posts ++ [tombstone oldPost now newId] } := by
    unfold Db.UniqueIds
    simp only [List.map_append, List.map_cons, List.map_nil]
    rw [hids]
    refine List.Nodup.append hu (List.nodup_singleton _) ?_
    intro x hx hx2
    rw [List.mem_singleton] at hx2
    rw [hx2] at hx
    exact hfresh hx
  have hrow1 : row ∈ db3.Posts ++ [tombstone oldPost now newId] :=
    List.mem_append_left _ hrow3
  have hrlive : row.DeleteAt = 0 := hrdel.trans hlive
  refine ⟨editedCopy oldPost newMessage newHashtags now, _, tombstone oldPost now newId,
    db3.Posts, hupd, rfl, rfl, hids, hu1, ?_, rfl, rfl, rfl, rfl, rfl, row, hrow1, hrid, hrlive,
    hrmsg, hrtags, ?_⟩
  · intro e
    apply hfresh
    have : newId = oldPost.Id := e
    rw [this]
    exact hidin
  · obtain ⟨pl, hget, _, hmap⟩ := mapGet_Get_of_live _ hu1 row hrow1 hrlive
    rw [hrid] at hget
    refine ⟨pl, hget, ?_⟩
    rw [← hrid, hmap]
    refine ⟨rfl, hrow1, hrlive, ?_⟩
    unfold threadRoot
    by_cases h : row.RootId = "" <;> simp [h]

theorem Update_keeps_id_and_adds_tombstone_witness :
    ∃ (edited : Post) (db1 : Db) (tomb : Post) (rows : List Post),
      Update sampleModel pageDb (samplePost "p" "r" 2) "new" "#h" 10 "n" 11 =
        ({ Data := some edited, Err := none }, db1, tomb) ∧
      edited = { samplePost "p" "r" 2 with Message := "new", Hashtags := "#h",
                                           UpdateAt := 10 } ∧
      db1.Posts = rows ++ [tomb] ∧ rows.map Post.Id = pageDb.Posts.map Post.Id ∧
      db1.UniqueIds ∧
      tomb.Id ≠ (samplePost "p" "r" 2).Id ∧ tomb.DeleteAt = edited.UpdateAt ∧
      tomb.UpdateAt = edited.UpdateAt ∧ tomb.OriginalId = (samplePost "p" "r" 2).Id ∧
      tomb.Message = (samplePost "p" "r" 2).Message ∧
      tomb.Hashtags = (samplePost "p" "r" 2).Hashtags ∧
      ∃ row ∈ db1.Posts, row.Id = (samplePost "p" "r" 2).Id ∧ row.DeleteAt = 0 ∧
        row.Message = "new" ∧ row.Hashtags = "#h" ∧
        ∃ pl, Get db1 (samplePost "p" "r" 2).Id = { Data := some pl, Err := none } ∧
          mapGet (samplePost "p" "r" 2).Id pl.Posts = some row :=
  Update_keeps_id_and_adds_tombstone sampleModel pageDb (by decide) (samplePost "p" "r" 2)
    (by decide) (by decide) "new" "#h" 10 "n" 11 (by decide) (by decide)
/-! ## Delete -/

theorem length_filter_split (A B C : Post → Bool) (hC : ∀ x, C x = (A x || B x))
    (hd : ∀ x, A x = true → B x = false) (rows : List Post) :
    (rows.filter C).length = (rows.filter A).length + (rows.filter B).length := by
  induction rows with
  | nil => rfl
  | cons r rows ih =>
    simp only [List.filter_cons, hC r]
    cases hA : A r
    · cases hB : B r
      · simpa using ih
      · simp only [Bool.false_or, if_true, List.length_cons, Bool.false_eq_true, if_false]
        omega
    · have hB := hd r hA
      simp only [hB, Bool.or_false, if_true, List.length_cons, Bool.false_eq_true, if_false]
      omega

theorem length_filter_zip_map (F : Post → Post) (P : Post × Post → Bool) (rows : List Post) :
    ((rows.zip (rows.map F)).filter P).length =
      (rows.filter fun r => P (r, F r)).length := by
  induction rows with
  | nil => rfl
  | cons r rows ih =>
    simp only [List.map_cons, List.zip_cons_cons, List.filter_cons]
    cases P (r, F r) <;> simp [ih]

theorem softDeleted_execDelete (db : Db) (now : Int) (hnow : 0 < now) (postId : String) :
    softDeleted db.Posts (execDelete db now postId).Posts now =
      (db.Posts.filter fun r =>
        r.DeleteAt = 0 ∧ (r.Id = postId ∨ r.ParentId = postId ∨ r.RootId = postId)).length := by
  unfold softDeleted execDelete
  simp only
  rw [length_filter_zip_map]
  congr 1
  apply List.filter_congr
  intro r _
  by_cases hm : r.Id = postId ∨ r.ParentId = postId ∨ r.RootId = postId
  · simp [hm]
  · simp only [hm, if_false, and_false, decide_False]
    by_cases h0 : r.DeleteAt = 0
    · have : ¬ (0 : Int) = now := by omega
      simp [h0, this]
    · simp [h0]
theorem Delete_eq (db : Db) (postId : String) (time : Int) :
    Delete db postId time = ({ Data := none, Err := none }, execDelete db time postId) := rfl

theorem liveHit_count (db : Db) (hu : db.UniqueIds) (t : Post) (ht : t ∈ db.Posts)
    (htl : t.DeleteAt = 0) :
    (db.Posts.filter fun r =>
        r.DeleteAt = 0 ∧ (r.Id = t.Id ∨ r.ParentId = t.Id ∨ r.RootId = t.Id)).length =
      (db.Posts.filter fun r =>
        r.DeleteAt = 0 ∧ r.Id ≠ t.Id ∧ (r.ParentId = t.Id ∨ r.RootId = t.Id)).length + 1 := by
  have hone : db.Posts.filter (fun r => r.Id = t.Id ∧ r.DeleteAt = 0) = [t] :=
    filter_key_eq_singleton (fun r => r.DeleteAt = 0) db.Posts hu t ht htl
  rw [length_filter_split (fun r => decide (r.Id = t.Id ∧ r.DeleteAt = 0))
    (fun r => decide (r.DeleteAt = 0 ∧ r.Id ≠ t.Id ∧ (r.ParentId = t.Id ∨ r.RootId = t.Id)))
    (fun r => decide (r.DeleteAt = 0 ∧ (r.Id = t.Id ∨ r.ParentId = t.Id ∨ r.RootId = t.Id))),
    hone]
  · simp only [List.length_singleton]
    omega
  · intro r
    by_cases h1 : r.Id = t.Id <;> by_cases h2 : r.DeleteAt = 0 <;> simp [h1, h2]
  · intro r hA
    simp only [decide_eq_true_eq] at hA
    simp [hA.1]

/-- C6 (as amended): in a table with unique ids, `Delete` of a live post `t` at a time
`now > 0` sends no error and turns exactly `N + 1` live rows into rows with
`DeleteAt = UpdateAt = now`, where `N` counts the other live rows whose `ParentId` or
`RootId` is `t.Id`.  So it turns exactly one row when no row names `t` as parent or root,
and `N + 1` rows with `N` the live rows whose `RootId` is `t.Id` when every live row that
names `t` as parent also names it as root.  Rows keep their positions, every row that
matches the statement is stamped with `now`, and every row whose id, `ParentId` and
`RootId` all differ from `t.Id` is unchanged, as is table `Channels`. -/
theorem Delete_soft_deletes_target_and_children (db : Db) (hu : db.UniqueIds) (t : Post)
    (ht : t ∈ db.Posts) (htl : t.DeleteAt = 0) (now : Int) (hnow : 0 < now) :
    (Delete db t.Id now).1 = { Data := none, Err := none } ∧
    softDeleted db.Posts (Delete db t.Id now).2.Posts now =
      (db.Posts.filter fun r =>
        r.DeleteAt = 0 ∧ r.Id ≠ t.Id ∧ (r.ParentId = t.Id ∨ r.RootId = t.Id)).length + 1 ∧
    ((∀ r ∈ db.Posts, r.ParentId ≠ t.Id ∧ r.RootId ≠ t.Id) →
      softDeleted db.Posts (Delete db t.Id now).2.Posts now = 1) ∧
    (t.RootId ≠ t.Id →
      (∀ r ∈ db.Posts, r.DeleteAt = 0 → r.ParentId = t.Id → r.RootId = t.Id) →
      softDeleted db.Posts (Delete db t.Id now).2.Posts now =
        (db.Posts.filter fun r => r.DeleteAt = 0 ∧ r.RootId = t.Id).length + 1) ∧
    (Delete db t.Id now).2.Posts.length = db.Posts.length ∧
    (∀ (i : Nat) (r : Post), db.Posts[i]? = some r →
      (r.Id = t.Id ∨ r.ParentId = t.Id ∨ r.RootId = t.Id) →
      (Delete db t.Id now).2.Posts[i]? = some { r with DeleteAt := now, UpdateAt := now }) ∧
    (∀ (i : Nat) (r : Post), db.Posts[i]? = some r →
      r.Id ≠ t.Id → r.ParentId ≠ t.Id → r.RootId ≠ t.Id →
      (Delete db t.Id now).2.Posts[i]? = some r) ∧
    (Delete db t.Id now).2.Channels = db.Channels := by
  have hcount : softDeleted db.Posts (Delete db t.Id now).2.Posts now =
      (db.Posts.filter fun r =>
        r.DeleteAt = 0 ∧ r.Id ≠ t.Id ∧ (r.ParentId = t.Id ∨ r.RootId = t.Id)).length + 1 := by
    rw [Delete_eq, softDeleted_execDelete db now hnow t.Id, liveHit_count db hu t ht htl]
  refine ⟨rfl, hcount, ?_, ?_, ?_, ?_, ?_, rfl⟩
  · intro hleaf
    rw [hcount]
    have : (db.Posts.filter fun r =>
        r.DeleteAt = 0 ∧ r.Id ≠ t.Id ∧ (r.ParentId = t.Id ∨ r.RootId = t.Id)) = [] := by
      rw [List.filter_eq_nil_iff]
      intro r hr
      have := hleaf r hr
      simp [this.1, this.2]
    rw [this]
    rfl
  · intro hself hthread
    rw [hcount]
    congr 2
    apply List.filter_congr
    intro r hr
    by_cases h0 : r.DeleteAt = 0
    · by_cases hroot : r.RootId = t.Id
      · have hne : r.Id ≠ t.Id := by
          intro e
          have : r = t := List.inj_on_of_nodup_map hu hr ht e
          rw [this] at hroot
          exact hself hroot
        simp [h0, hroot, hne]
      · have hpar : ¬ r.ParentId = t.Id := fun e => hroot (hthread r hr h0 e)
        simp [h0, hroot, hpar]
    · simp [h0]
  · rw [Delete_eq]
    simp [execDelete]
  · intro i r hi hm
    rw [Delete_eq]
    simp only [execDelete, List.getElem?_map, hi, Option.map_some', if_pos hm]
  · intro i r hi h1 h2 h3
    rw [Delete_eq]
    have hm : ¬ (r.Id = t.Id ∨ r.ParentId = t.Id ∨ r.RootId = t.Id) := by
      rintro (h | h | h)
      · exact h1 h
      · exact h2 h
      · exact h3 h
    simp only [execDelete, List.getElem?_map, hi, Option.map_some', if_neg hm]

theorem Delete_soft_deletes_target_and_children_witness :
    softDeleted pageDb.Posts (Delete pageDb (samplePost "r" "" 1).Id 20).2.Posts 20 =
        (pageDb.Posts.filter fun r =>
          r.DeleteAt = 0 ∧ r.RootId = (samplePost "r" "" 1).Id).length + 1 ∧
      softDeleted pageDb.Posts (Delete pageDb (samplePost "s" "r" 3).Id 20).2.Posts 20 = 1 :=
  ⟨(Delete_soft_deletes_target_and_children pageDb (by decide) (samplePost "r" "" 1)
      (by decide) (by decide) 20 (by decide)).2.2.2.1 (by decide) (by decide),
   (Delete_soft_deletes_target_and_children pageDb (by decide) (samplePost "s" "r" 3)
      (by decide) (by decide) 20 (by decide)).2.2.1 (by decide)⟩

/-- C6 (as stated) fails: the sample root `r` has exactly one live reply (one live row
whose `RootId` is `r`), yet `Delete` turns three live rows, not two, because the live
post `q` of another thread names `r` as its parent. -/
theorem Delete_also_hits_posts_naming_parent :
    deleteDb.UniqueIds ∧ samplePost "r" "" 1 ∈ deleteDb.Posts ∧
      (samplePost "r" "" 1).DeleteAt = 0 ∧ (samplePost "r" "" 1).RootId = "" ∧
      (deleteDb.Posts.filter fun x => x.DeleteAt = 0 ∧ x.RootId = "r").length = 1 ∧
      softDeleted deleteDb.Posts (Delete deleteDb "r" 20).2.Posts 20 = 3 := by
  decide
/-! ## The paging limit -/

theorem GetPosts_over_limit (db : Db) (channelId : String) (offset limit : Int)
    (h : limit > 1000) :
    GetPosts db channelId offset limit =
      { Data := none,
        Err := some (NewAppError "SqlPostStore.GetLinearPosts" "Limit exceeded for paging"
          ("channelId=" ++ channelId)) } := by
  unfold GetPosts
  rw [if_pos h]

theorem GetPosts_within_limit_Err (db : Db) (channelId : String) (offset limit : Int)
    (h : limit ≤ 1000) :
    (GetPosts db channelId offset limit).Err = none ∨
      ∃ e, (GetPosts db channelId offset limit).Err = some e ∧
        e.Message ≠ "Limit exceeded for paging" := by
  unfold GetPosts
  rw [if_neg (not_lt.2 h)]
  cases hwin : pageWindow db channelId offset limit with
  | error err =>
    right
    refine ⟨NewAppError "SqlPostStore.GetLinearPosts"
      "We couldn't get the posts for the channel" ("channelId=" ++ channelId ++ err), ?_, ?_⟩
    · simp [getRootPosts, hwin, mergePosts]
    · simp only [NewAppError]
      decide
  | ok win =>
    left
    rw [getRootPosts_of_window hwin, getParentsPosts_of_window hwin, mergePosts_of_ok]

theorem pageWindow_of_nonneg (db : Db) (channelId : String) (offset limit : Int)
    (ho : 0 ≤ offset) (hl : 0 ≤ limit) :
    ∃ win, pageWindow db channelId offset limit = .ok win := by
  unfold pageWindow sqlLimit
  rw [if_neg (by omega)]
  exact ⟨_, rfl⟩

/-- C11: `GetPosts` fails with the limit-exceeded error exactly when `limit > 1000`.  Above
the limit the result is that error whatever the tables hold, so no sub-query is consulted;
`limit = 1001` is rejected; up to the limit two successful sub-queries yield a post list
and no error, and `limit = 1000` with a non-negative offset does so. -/
theorem GetPosts_limit_guard (db : Db) (channelId : String) (offset limit : Int) :
    ((GetPosts db channelId offset limit).Err =
        some (NewAppError "SqlPostStore.GetLinearPosts" "Limit exceeded for paging"
          ("channelId=" ++ channelId)) ↔ limit > 1000) ∧
    (limit > 1000 → ∀ other : Db,
      GetPosts other channelId offset limit =
        { Data := none,
          Err := some (NewAppError "SqlPostStore.GetLinearPosts" "Limit exceeded for paging"
            ("channelId=" ++ channelId)) }) ∧
    (limit ≤ 1000 → ∀ a b : List Post,
      getRootPosts db channelId offset limit = { Data := some a, Err := none } →
      getParentsPosts db channelId offset limit = { Data := some b, Err := none } →
      ∃ pl, GetPosts db channelId offset limit = { Data := some pl, Err := none }) ∧
    GetPosts db channelId offset 1001 =
      { Data := none,
        Err := some (NewAppError "SqlPostStore.GetLinearPosts" "Limit exceeded for paging"
          ("channelId=" ++ channelId)) } ∧
    (0 ≤ offset → ∃ pl, GetPosts db channelId offset 1000 = { Data := some pl, Err := none }) := by
  refine ⟨⟨?_, ?_⟩, ?_, ?_, ?_, ?_⟩
  · intro herr
    by_contra hle
    rcases GetPosts_within_limit_Err db channelId offset limit (not_lt.1 hle) with h | ⟨e, he, hm⟩
    · rw [h] at herr
      exact Option.noConfusion herr
    · rw [he] at herr
      simp only [Option.some.injEq] at herr
      rw [herr] at hm
      exact hm rfl
  · intro h
    rw [GetPosts_over_limit db channelId offset limit h]
  · intro h other
    exact GetPosts_over_limit other channelId offset limit h
  · intro h a b ha hb
    have hG : GetPosts db channelId offset limit =
        mergePosts { Data := some a, Err := none } { Data := some b, Err := none } := by
      unfold GetPosts
      rw [if_neg (not_lt.2 h), ha, hb]
    exact ⟨_, hG.trans (mergePosts_of_ok a b)⟩
  · exact GetPosts_over_limit db channelId offset 1001 (by decide)
  · intro ho
    obtain ⟨win, hwin⟩ := pageWindow_of_nonneg db channelId offset 1000 ho (by decide)
    exact ⟨_, (GetPosts_of_window (by decide) hwin).trans (mergePosts_of_ok _ _)⟩

theorem GetPosts_limit_guard_witness :
    (∃ pl, GetPosts pageDb "c1" 0 1000 = { Data := some pl, Err := none }) ∧
      GetPosts pageDb "c1" 0 1001 =
        { Data := none,
          Err := some (NewAppError "SqlPostStore.GetLinearPosts" "Limit exceeded for paging"
            ("channelId=" ++ "c1")) } ∧
      ((GetPosts pageDb "c1" 0 1001).Err =
        some (NewAppError "SqlPostStore.GetLinearPosts" "Limit exceeded for paging"
          ("channelId=" ++ "c1")) ↔ (1001 : Int) > 1000) :=
  ⟨(GetPosts_limit_guard pageDb "c1" 0 1000).2.2.2.2 (by decide),
   (GetPosts_limit_guard pageDb "c1" 0 1001).2.2.2.1,
   (GetPosts_limit_guard pageDb "c1" 0 1001).1⟩
/-! ## Looking up an id that has no live post -/

theorem withFileUrls_zero : withFileUrls Post.zero = Post.zero := by decide

theorem Get_of_missing (db : Db) (wanted : String)
    (hmiss : ∀ r ∈ db.Posts, r.DeleteAt = 0 → r.Id ≠ wanted) :
    Get db wanted =
      { Data := some ((db.Posts.filter fun r =>
            (r.Id = "" ∨ r.RootId = "") ∧ r.DeleteAt = 0).foldl
          PostList.AddPost { Order := [wanted], Posts := [("", Post.zero)] }),
        Err := some (NewAppError "SqlPostStore.GetPost" "We couldn't get the post"
          ("id=" ++ wanted ++ "sql: no rows in result set")) } := by
  have hnone : db.Posts.filter (fun r => r.Id = wanted ∧ r.DeleteAt = 0) = [] := by
    rw [List.filter_eq_nil_iff]
    intro r hr
    simp only [decide_eq_true_eq, not_and]
    intro e hl
    exact hmiss r hr hl e
  have hroot : threadRoot Post.zero = "" := rfl
  have hzid : Post.zero.Id = "" := rfl
  unfold Get
  simp only [hnone, SelectOne, withFileUrls_zero, hroot]
  simp [PostList.AddPost, PostList.AddOrder, mapSet, hzid]

/-- C12: in a table with unique ids, `Get` of an id that no live post has reports the
lookup error and still returns data whose order list is that id alone.  The thread root is
the empty string, so the map holds, under the empty key, the empty placeholder post (or the
live post whose own id is empty, if there is one), and under its own id every live post
whose `RootId` is empty, whatever its channel, and nothing else; none of those root posts
has the requested id as its thread root. -/
theorem Get_of_missing_id_returns_all_roots (db : Db) (hu : db.UniqueIds) (wanted : String)
    (hmiss : ∀ r ∈ db.Posts, r.DeleteAt = 0 → r.Id ≠ wanted) :
    ∃ pl, Get db wanted =
        { Data := some pl,
          Err := some (NewAppError "SqlPostStore.GetPost" "We couldn't get the post"
            ("id=" ++ wanted ++ "sql: no rows in result set")) } ∧
      pl.Order = [wanted] ∧
      threadRoot (withFileUrls Post.zero) = "" ∧
      (∃ e, mapGet "" pl.Posts = some e ∧
        ((e = Post.zero ∧ ∀ r ∈ db.Posts, r.DeleteAt = 0 → r.Id ≠ "") ∨
         (e ∈ db.Posts ∧ e.DeleteAt = 0 ∧ e.Id = ""))) ∧
      (∀ q ∈ db.Posts, q.DeleteAt = 0 → q.RootId = "" →
        mapGet q.Id pl.Posts = some q ∧ threadRoot q ≠ wanted) ∧
      (∀ k e, mapGet k pl.Posts = some e →
        (k = "" ∧ e = Post.zero) ∨
        (k = e.Id ∧ e ∈ db.Posts ∧ e.DeleteAt = 0 ∧ (e.Id = "" ∨ e.RootId = ""))) := by
  have hnd := nodup_ids_filter hu
    (fun r => decide ((r.Id = "" ∨ r.RootId = "") ∧ r.DeleteAt = 0))
  have hget : ∀ k, mapGet k ((db.Posts.filter fun r =>
        (r.Id = "" ∨ r.RootId = "") ∧ r.DeleteAt = 0).foldl
      PostList.AddPost { Order := [wanted], Posts := [("", Post.zero)] }).Posts =
      match (db.Posts.filter fun r =>
          (r.Id = "" ∨ r.RootId = "") ∧ r.DeleteAt = 0).reverse.find? (fun p => p.Id = k) with
      | some p => some p
      | none => mapGet k [("", Post.zero)] := by
    intro k
    have hfold := foldl_AddPost_Posts id
      (db.Posts.filter fun r => (r.Id = "" ∨ r.RootId = "") ∧ r.DeleteAt = 0)
      { Order := [wanted], Posts := [("", Post.zero)] }
    have hg := mapGet_foldl_mapSet id (fun _ => rfl) k
      (db.Posts.filter fun r => (r.Id = "" ∨ r.RootId = "") ∧ r.DeleteAt = 0)
      [("", Post.zero)]
    simp only [id] at hfold hg
    rw [hfold, hg]
  have hmem : ∀ q, q ∈ db.Posts.filter
      (fun r => decide ((r.Id = "" ∨ r.RootId = "") ∧ r.DeleteAt = 0)) ↔
      q ∈ db.Posts ∧ (q.Id = "" ∨ q.RootId = "") ∧ q.DeleteAt = 0 := by
    intro q
    rw [List.mem_filter]
    simp only [decide_eq_true_eq]
  refine ⟨_, Get_of_missing db wanted hmiss, foldl_AddPost_Order id _ _, ?_, ?_, ?_, ?_⟩
  · rw [withFileUrls_zero]; rfl
  · by_cases hex : "" ∈ (db.Posts.filter
        (fun r => decide ((r.Id = "" ∨ r.RootId = "") ∧ r.DeleteAt = 0))).map Post.Id
    · obtain ⟨p, hfind, hp, hpid⟩ := find?_reverse_isSome hex
      refine ⟨p, ?_, Or.inr ?_⟩
      · rw [hget, hfind]
      · have := (hmem p).1 hp
        exact ⟨this.1, this.2.2, hpid⟩
    · refine ⟨Post.zero, ?_, Or.inl ⟨rfl, ?_⟩⟩
      · rw [hget, find?_reverse_eq_none hex]
        rfl
      · intro r hr hl e
        apply hex
        exact List.mem_map.2 ⟨r, (hmem r).2 ⟨hr, Or.inl e, hl⟩, e⟩
  · intro q hq hl hroot
    constructor
    · rw [hget, find?_reverse_of_nodup hnd ((hmem q).2 ⟨hq, Or.inr hroot, hl⟩)]
    · unfold threadRoot
      rw [if_pos hroot]
      exact hmiss q hq hl
  · intro k e he
    rw [hget] at he
    cases hf : (db.Posts.filter (fun r => decide ((r.Id = "" ∨ r.RootId = "") ∧ r.DeleteAt = 0))).reverse.find?
        (fun p => p.Id = k) with
    | some p =>
      rw [hf] at he
      simp only [Option.some.injEq] at he
      subst he
      right
      have h1 := List.find?_some hf
      have h2 := (hmem p).1 (List.mem_reverse.1 (List.mem_of_find?_eq_some hf))
      simp only [decide_eq_true_eq] at h1
      exact ⟨h1.symm, h2.1, h2.2.2, h2.2.1⟩
    | none =>
      rw [hf] at he
      left
      simp only [mapGet] at he
      split at he
      · rename_i hk
        simp only [Option.some.injEq] at he
        exact ⟨hk.symm, he.symm⟩
      · exact Option.noConfusion he

theorem Get_of_missing_id_returns_all_roots_witness :
    ∃ pl, Get twoChannelDb "gone" =
        { Data := some pl,
          Err := some (NewAppError "SqlPostStore.GetPost" "We couldn't get the post"
            ("id=" ++ "gone" ++ "sql: no rows in result set")) } ∧
      pl.Order = ["gone"] ∧
      threadRoot (withFileUrls Post.zero) = "" ∧
      (∃ e, mapGet "" pl.Posts = some e ∧
        ((e = Post.zero ∧ ∀ r ∈ twoChannelDb.Posts, r.DeleteAt = 0 → r.Id ≠ "") ∨
         (e ∈ twoChannelDb.Posts ∧ e.DeleteAt = 0 ∧ e.Id = ""))) ∧
      (∀ q ∈ twoChannelDb.Posts, q.DeleteAt = 0 → q.RootId = "" →
        mapGet q.Id pl.Posts = some q ∧ threadRoot q ≠ "gone") ∧
      (∀ k e, mapGet k pl.Posts = some e →
        (k = "" ∧ e = Post.zero) ∨
        (k = e.Id ∧ e ∈ twoChannelDb.Posts ∧ e.DeleteAt = 0 ∧ (e.Id = "" ∨ e.RootId = ""))) :=
  Get_of_missing_id_returns_all_roots twoChannelDb (by decide) "gone" (by decide)
/-! ## What `Update` does to the caller's post -/

/-- C13: whatever the validator answers and whatever the tables hold, after `Update` the
caller's `oldPost` has the new id, its former id as `OriginalId`, and `DeleteAt` and
`UpdateAt` equal to the edit time, every other field as before; when validation rejects
the edit the result is that error without data, the tables are untouched, and the
caller's post is rewritten all the same. -/
theorem Update_rewrites_callers_post (m : Model) (db : Db) (oldPost : Post)
    (newMessage newHashtags : String) (now : Int) (newId : String) (time : Int) :
    (Update m db oldPost newMessage newHashtags now newId time).2.2 =
        { oldPost with Id := newId, OriginalId := oldPost.Id, DeleteAt := now,
                       UpdateAt := now } ∧
      (Update m db oldPost newMessage newHashtags now newId time).2.2.Message =
        oldPost.Message ∧
      (Update m db oldPost newMessage newHashtags now newId time).2.2.Hashtags =
        oldPost.Hashtags ∧
      (Update m db oldPost newMessage newHashtags now newId time).2.2.ChannelId =
        oldPost.ChannelId ∧
      (Update m db oldPost newMessage newHashtags now newId time).2.2.UserId =
        oldPost.UserId ∧
      (Update m db oldPost newMessage newHashtags now newId time).2.2.RootId =
        oldPost.RootId ∧
      (Update m db oldPost newMessage newHashtags now newId time).2.2.ParentId =
        oldPost.ParentId ∧
      (Update m db oldPost newMessage newHashtags now newId time).2.2.CreateAt =
        oldPost.CreateAt ∧
      (∀ e, m.IsValid (editedCopy oldPost newMessage newHashtags now) = some e →
        Update m db oldPost newMessage newHashtags now newId time =
          ({ Data := none, Err := some e }, db,
           { oldPost with Id := newId, OriginalId := oldPost.Id, DeleteAt := now,
                          UpdateAt := now })) := by
  have hpost : (Update m db oldPost newMessage newHashtags now newId time).2.2 =
      tombstone oldPost now newId := by
    unfold Update
    simp only [updatePost]
    cases m.IsValid (editedCopy oldPost newMessage newHashtags now) with
    | some e => rfl
    | none => rfl
  refine ⟨hpost, ?_, ?_, ?_, ?_, ?_, ?_, ?_, ?_⟩
  · rw [hpost]; rfl
  · rw [hpost]; rfl
  · rw [hpost]; rfl
  · rw [hpost]; rfl
  · rw [hpost]; rfl
  · rw [hpost]; rfl
  · rw [hpost]; rfl
  · intro e he
    unfold Update
    simp only [he]
    rfl

theorem Update_rewrites_callers_post_witness :
    Update sampleModel pageDb (samplePost "p" "r" 0) "new" "#h" 10 "n" 11 =
      ({ Data := none, Err := some (NewAppError "Post.IsValid" "Invalid post" "") }, pageDb,
       { samplePost "p" "r" 0 with Id := "n", OriginalId := (samplePost "p" "r" 0).Id,
                                   DeleteAt := 10, UpdateAt := 10 }) :=
  (Update_rewrites_callers_post sampleModel pageDb (samplePost "p" "r" 0) "new" "#h" 10 "n"
    11).2.2.2.2.2.2.2.2 (NewAppError "Post.IsValid" "Invalid post" "") (by decide)

end Store
